import Mathlib

/-!
# Verification of the orbis PFS image/filesystem stack

Shallow embedding of the core of the `orbis-pfs` crate (positional file
reads, copy-on-write overlay, PFSC decompression adapter, inode block-map
resolution, header parsing, directory enumeration, XTS slice reads) together
with proofs settling the specification claims about it.

Machine integers are modelled as `Nat`; wrap-around of a fixed-width
operation is written explicitly as `% 2 ^ w` at the places where the Rust
code can actually overflow (u32 block arithmetic in `load_block_map`, usize
underflow in `Dirent::padding_size`).  External libraries that are not part
of this repository (the deflate codec of `flate2`, the XTS cipher of
`xts_mode`) are abstracted as function parameters.
-/

set_option maxHeartbeats 1000000
set_option maxRecDepth 100000

namespace Orbis

/-- A byte. -/
abbrev Byte := UInt8

/-- Model of a positional byte source (the `Image` trait): `img p` is the
byte at physical offset `p`, or `none` past the end of the source. -/
def ImageFun := Nat → Option Byte

/-- `Image::read_exact_at` over an abstract byte source: it loops `read_at`
and fails with `UnexpectedEof` unless every byte of `[offset, offset + n)`
is available, in which case it returns exactly those bytes. -/
def readExactAt (img : ImageFun) : Nat → Nat → Option (List Byte)
  | _, 0 => some []
  | offset, n + 1 =>
    (img offset).bind fun b =>
      (readExactAt img (offset + 1) n).map fun l => b :: l

/-!
## `pfs_read_at` (src/orbis-pfs/src/file.rs)

The data reachable from `pfs` and `inode` inside `pfs_read_at`: the inode's
file size, the PFS block size, the inode's precomputed block map, and the
underlying image.  All u64 quantities of the Rust loop stay below `2 ^ 64`
whenever `blockMap.length < 2 ^ 32` and `blockSize ≤ 2 ^ 31` (true of every
opened PFS, whose block map length is an u32 count and whose block size is
an u32 power of two): `block_end` is computed only after a successful
`block_map.get`, which bounds `block_index`.  Hence plain `Nat` arithmetic
is faithful here.
-/

/-- The state read by `pfs_read_at`. -/
structure PfsView where
  fileSize : Nat
  blockSize : Nat
  blockMap : List Nat
  img : ImageFun

/-- The loop of `pfs_read_at`: `pos` is the current logical offset,
`remaining` the unfilled portion of the output buffer.  Returns the bytes
written to the buffer.  Any `fuel ≥ remaining` is enough fuel, because each
iteration copies at least one byte. -/
def pfsReadLoop (v : PfsView) : Nat → Nat → Nat → Except String (List Byte)
  | 0, _, _ => .error "out of fuel"
  | fuel + 1, pos, remaining =>
    let blockIndex := pos / v.blockSize
    let offsetInBlock := pos % v.blockSize
    match v.blockMap.get? blockIndex with
    | none => .error ("block #" ++ toString blockIndex ++ " is not available")
    | some blockNum =>
      let blockEnd := (blockIndex + 1) * v.blockSize
      let remainingInBlock := min blockEnd v.fileSize - pos
      let toRead := min remainingInBlock remaining
      let physOffset := blockNum * v.blockSize + offsetInBlock
      match readExactAt v.img physOffset toRead with
      | none => .error "unexpected EOF in image"
      | some bytes =>
        if remaining - toRead = 0 ∨ v.fileSize ≤ pos + toRead then
          .ok bytes
        else
          match pfsReadLoop v fuel (pos + toRead) (remaining - toRead) with
          | .ok rest => .ok (bytes ++ rest)
          | .error e => .error e

/-- `pfs_read_at`: positional read of `bufLen` bytes of a PFS file at
`offset`.  Returns the bytes written to the output buffer. -/
def pfsReadAt (v : PfsView) (offset bufLen : Nat) : Except String (List Byte) :=
  if bufLen = 0 ∨ v.fileSize ≤ offset then .ok []
  else pfsReadLoop v bufLen offset bufLen

/-- The byte the claim expects `pfs_read_at` to deliver at logical file
offset `p`: the image byte at physical offset
`block_map[p / block_size] * block_size + p % block_size` (`none` when the
block is unmapped or the image ends early). -/
def specFileByte (v : PfsView) (p : Nat) : Option Byte :=
  (v.blockMap.get? (p / v.blockSize)).bind fun b =>
    v.img (b * v.blockSize + p % v.blockSize)

/-- The sequence of `n` claim-expected bytes starting at logical offset
`offset` (defined iff every needed block is mapped and every needed image
byte exists). -/
def specFileRead (v : PfsView) : Nat → Nat → Option (List Byte)
  | _, 0 => some []
  | offset, n + 1 =>
    (specFileByte v offset).bind fun b =>
      (specFileRead v (offset + 1) n).map fun l => b :: l

/-- A small concrete PFS view: file of 5 bytes, block size 4, two mapped
blocks, image byte at offset `p` equal to `p` for `p < 100`. -/
def c1View : PfsView :=
  { fileSize := 5
    blockSize := 4
    blockMap := [2, 7]
    img := fun p => if p < 100 then some (UInt8.ofNat p) else none }

/-!
## `CowImage` (src/orbis-pfs/src/image.rs)

The base image is a byte list with slice read semantics (`UnencryptedSlice`
or the in-memory test image): `read_at` returns the bytes available from
the offset, hence `read_exact_at` succeeds exactly when the requested range
lies inside the data.  The `BTreeMap<u64, Vec<u8>>` overlay is an
association list of segments kept sorted by start offset — the maintained
invariant (no two segments overlap or touch) implies strict key sortedness,
so list order coincides with the BTreeMap's ascending key order, and
`range(..=k)` / `range(..k)` are the sorted filters by key bound.
-/

/-- A CoW overlay segment: start offset and modified bytes. -/
abbrev Segment := Nat × List Byte

/-- `Image::read_exact_at` on a slice-backed image. -/
def listReadExactAt (data : List Byte) (offset n : Nat) : Option (List Byte) :=
  if n = 0 then some []
  else if offset + n ≤ data.length then some ((data.drop offset).take n)
  else none

/-- State of a `CowImage`: the overlay map and the logical length. -/
structure CowState where
  overlay : List Segment
  logicalLen : Nat
deriving DecidableEq

/-- `CowImage::new`: empty overlay, logical length = base length. -/
def cowNew (base : List Byte) : CowState :=
  { overlay := [], logicalLen := base.length }

/-- `buf[at .. at + src.len()].copy_from_slice(src)` (in-range in every
use below; the Lean version is total). -/
def patchList (buf : List Byte) (start : Nat) (src : List Byte) : List Byte :=
  buf.take start ++ src ++ buf.drop (start + src.length)

/-- `overlay.range(..=bound)` in ascending key order. -/
def segsUpTo (overlay : List Segment) (bound : Nat) : List Segment :=
  overlay.filter fun s => s.1 ≤ bound

/-- `overlay.range(..bound)` in ascending key order. -/
def segsBelow (overlay : List Segment) (bound : Nat) : List Segment :=
  overlay.filter fun s => s.1 < bound

/-- `BTreeMap::insert` on the sorted association list (overwrites an equal
key). -/
def segInsert (s : Segment) : List Segment → List Segment
  | [] => [s]
  | t :: rest =>
    if s.1 < t.1 then s :: t :: rest
    else if s.1 = t.1 then s :: rest
    else t :: segInsert s rest

/-- The zero-initialized merge buffer after the base fill of
`CowImage::write_at`: `read_exact_at` over the whole range, and on
`UnexpectedEof` re-read just the available prefix, leaving the tail
zero-filled. -/
def cowMergedInit (base : List Byte) (mergedStart mergedLen : Nat) : List Byte :=
  match listReadExactAt base mergedStart mergedLen with
  | some l => l
  | none =>
    let zeros := List.replicate mergedLen (0 : Byte)
    if mergedStart < base.length then
      let avail := base.length - mergedStart
      let readLen := min avail mergedLen
      match listReadExactAt base mergedStart readLen with
      | some l => l ++ zeros.drop readLen
      | none => zeros
    else zeros

/-- The overlaps-or-touches set collected by `CowImage::write_at`:
`range(..=write_end)`, reversed, taken while
`seg_start + seg_data.len() >= write_start` (yielding `(key, value)` pairs
in descending key order, exactly the segments removed from the map). -/
def cowToMerge (overlay : List Segment) (writeStart writeEnd : Nat) :
    List Segment :=
  (segsUpTo overlay writeEnd).reverse.takeWhile fun s =>
    writeStart ≤ s.1 + s.2.length

/-- The merged segment built by `CowImage::write_at` when `toMerge` is
nonempty: bounding range of the write and all collected segments,
zero-extended base fill, collected segments layered on top, the new write
layered last. -/
def cowMergedSeg (base : List Byte) (toMerge : List Segment)
    (writeStart writeEnd : Nat) (data : List Byte) : Segment :=
  let mergedStart := (toMerge.map Prod.fst).foldr min writeStart
  let mergedEnd := (toMerge.map fun s => s.1 + s.2.length).foldr max writeEnd
  let mergedLen := mergedEnd - mergedStart
  let withBase := cowMergedInit base mergedStart mergedLen
  let withSegs := toMerge.foldl
    (fun buf s => patchList buf (s.1 - mergedStart) s.2) withBase
  (mergedStart, patchList withSegs (writeStart - mergedStart) data)

/-- `CowImage::write_at`. -/
def cowWriteAt (base : List Byte) (st : CowState) (offset : Nat)
    (data : List Byte) : Except String CowState :=
  if data.isEmpty then .ok st
  else if 2 ^ 64 ≤ offset + data.length then .error "write range overflows u64"
  else
    let writeEnd := offset + data.length
    let len2 := max st.logicalLen writeEnd
    let toMerge := cowToMerge st.overlay offset writeEnd
    let kept := st.overlay.filter fun s => ¬ s.1 ∈ toMerge.map Prod.fst
    if toMerge.isEmpty then
      .ok { overlay := segInsert (offset, data) st.overlay, logicalLen := len2 }
    else
      .ok { overlay := segInsert (cowMergedSeg base toMerge offset writeEnd data) kept
            logicalLen := len2 }

/-- Step 1 of `CowImage::read_at`: fill the clamped output buffer from the
base image (possibly short at base EOF) and zero the extension region. -/
def cowReadInit (base : List Byte) (offset readLen : Nat) : List Byte :=
  if offset < base.length then
    let baseAvail := min (base.length - offset) readLen
    (base.drop offset).take baseAvail ++
      List.replicate (readLen - baseAvail) (0 : Byte)
  else
    List.replicate readLen (0 : Byte)

/-- The overlay segments visited by `CowImage::read_at`:
`range(..read_end)`, reversed, stopping at the first segment with
`seg_end <= read_start`. -/
def cowToApply (overlay : List Segment) (readStart readEnd : Nat) :
    List Segment :=
  (segsBelow overlay readEnd).reverse.takeWhile fun s =>
    readStart < s.1 + s.2.length

/-- Step 2 of `CowImage::read_at`: copy the overlapping part of one overlay
segment onto the output buffer. -/
def cowApplySeg (readStart readEnd : Nat) (buf : List Byte) (s : Segment) :
    List Byte :=
  let overlapStart := max s.1 readStart
  let overlapEnd := min (s.1 + s.2.length) readEnd
  patchList buf (overlapStart - readStart)
    ((s.2.drop (overlapStart - s.1)).take (overlapEnd - overlapStart))

/-- The overlapping part of one overlay segment with the read window, as a
segment in its own right (the patch that `cowApplySeg` copies). -/
def segClip (readStart readEnd : Nat) (s : Segment) : Segment :=
  (max s.1 readStart,
    (s.2.drop (max s.1 readStart - s.1)).take
      (min (s.1 + s.2.length) readEnd - max s.1 readStart))

/-- `CowImage::read_at`: returns the bytes written to the output buffer of
length `bufLen` (reads on the slice-backed base cannot fail). -/
def cowReadAt (base : List Byte) (st : CowState) (offset bufLen : Nat) :
    List Byte :=
  if bufLen = 0 ∨ st.logicalLen ≤ offset then []
  else
    let readLen := min bufLen (st.logicalLen - offset)
    let readEnd := offset + readLen
    (cowToApply st.overlay offset readEnd).foldl
      (cowApplySeg offset readEnd) (cowReadInit base offset readLen)

/-- Runs a sequence of `write_at` calls, stopping at the first error. -/
def cowWrites (base : List Byte) : CowState → List Segment → Except String CowState
  | st, [] => .ok st
  | st, w :: ws =>
    match cowWriteAt base st w.1 w.2 with
    | .ok st2 => cowWrites base st2 ws
    | .error e => .error e

/-!
### Claim-side model for the overlay

`expected(B, writes, offset, len)` of the specification: layer the writes
onto the zero-extended base in order, with the logical length growing to
the end of each nonempty write.
-/

/-- The zero-extended base byte at offset `p`. -/
def baseByte (base : List Byte) (p : Nat) : Byte :=
  base.getD p 0

/-- Overrides `f` with one written range. -/
def overwrite (f : Nat → Byte) (w : Segment) : Nat → Byte :=
  fun p => if w.1 ≤ p ∧ p < w.1 + w.2.length then w.2.getD (p - w.1) 0 else f p

/-- The byte at `p` after layering all writes, in order, over the base. -/
def layered (base : List Byte) (ws : List Segment) : Nat → Byte :=
  ws.foldl overwrite (baseByte base)

/-- The logical length after a sequence of writes (an empty write is a
no-op and does not extend). -/
def expectedLen (base : List Byte) (ws : List Segment) : Nat :=
  ws.foldl (fun n w => if w.2.isEmpty then n else max n (w.1 + w.2.length))
    base.length

/-- The claim's expected result of `read_at(offset, buf)` after `ws`. -/
def expectedRead (base : List Byte) (ws : List Segment) (offset bufLen : Nat) :
    List Byte :=
  let len := expectedLen base ws
  if bufLen = 0 ∨ len ≤ offset then []
  else (List.range (min bufLen (len - offset))).map fun i =>
    layered base ws (offset + i)

/-- A segment covers offset `p`. -/
def covers (s : Segment) (p : Nat) : Prop :=
  s.1 ≤ p ∧ p < s.1 + s.2.length

instance (s : Segment) (p : Nat) : Decidable (covers s p) := by
  unfold covers; infer_instance

/-- The overlay byte at `p`, when some segment covers `p`. -/
def ovByte (overlay : List Segment) (p : Nat) : Option Byte :=
  match overlay.find? (fun s => decide (covers s p)) with
  | some s => some (s.2.getD (p - s.1) 0)
  | none => none

/-- The composite view of an overlay over a base: overlay byte where
present, zero-extended base byte elsewhere. -/
def ovView (base : List Byte) (overlay : List Segment) (p : Nat) : Byte :=
  match ovByte overlay p with
  | some b => b
  | none => baseByte base p

/-- The composite view of a `CowState`. -/
def viewByte (base : List Byte) (st : CowState) (p : Nat) : Byte :=
  ovView base st.overlay p

/-- Two segments in gap position: the first ends strictly before the second
starts. -/
def SegGap (a b : Segment) : Prop :=
  a.1 + a.2.length < b.1

/-- Invariant of the overlay map: pairwise gaps (hence strictly sorted,
non-overlapping, non-adjacent) and no empty segment. -/
def SegInv (overlay : List Segment) : Prop :=
  overlay.Pairwise SegGap ∧ ∀ s ∈ overlay, s.2 ≠ []

/-- A weaker, symmetric variant of `SegGap`: the two segments do not
overlap (they may touch). -/
def SegDisj (a b : Segment) : Prop :=
  a.1 + a.2.length ≤ b.1 ∨ b.1 + b.2.length ≤ a.1

/-- The concrete bridging scenario of the specification: three writes over
a 100-byte zero base, the third bridging the first two. -/
def c2Base : List Byte := List.replicate 100 0

def c2Writes : List Segment :=
  [(10, List.replicate 5 0xAA), (25, List.replicate 5 0xCC),
   (13, List.replicate 15 0xBB)]

def c2State : CowState :=
  { overlay := [(10, List.replicate 3 0xAA ++ List.replicate 15 0xBB ++
      List.replicate 2 0xCC)]
    logicalLen := 100 }

def c3Writes : List Segment :=
  [(10, List.replicate 5 0xAA), (15, List.replicate 5 0xBB),
   (40, [0x01])]

def c3State : CowState :=
  { overlay := [(10, List.replicate 5 0xAA ++ List.replicate 5 0xBB),
      (40, [0x01])]
    logicalLen := 100 }

/-!
## `PfscImage` (src/orbis-pfs/src/pfsc.rs)

The underlying source is an abstract byte source (`ImageFun`).  The deflate
codec of the external `flate2` crate is abstracted as a parameter
`inflate : List Byte → Option (List Byte)`: `some out` means the deflate
stream is well formed and complete with full decompressed output `out` (so
`decompress(..., Finish)` reaches `StreamEnd` with `total_out = out.length`
exactly when `out` fits the supplied buffer exactly), `none` means a
malformed stream.
-/

/-- Little-endian value of a byte list. -/
def leValue (bytes : List Byte) : Nat :=
  bytes.foldr (fun b acc => b.toNat + 256 * acc) 0

/-- The `n` bytes of `l` starting at `off`. -/
def bytesAt (l : List Byte) (off n : Nat) : List Byte :=
  (l.drop off).take n

/-- Little-endian u32 at byte offset `off`. -/
def leU32 (l : List Byte) (off : Nat) : Nat :=
  leValue (bytesAt l off 4)

/-- Little-endian u64 at byte offset `off`. -/
def leU64 (l : List Byte) (off : Nat) : Nat :=
  leValue (bytesAt l off 8)

/-- `count` little-endian u64 values read back to back. -/
def leU64List (bytes : List Byte) (count : Nat) : List Nat :=
  (List.range count).map fun i => leU64 bytes (8 * i)

/-- The state of an opened `PfscImage`. -/
structure PfscState where
  source : ImageFun
  blockSize : Nat
  originalBlockSize : Nat
  compressedBlocks : List Nat
  originalSize : Nat

/-- The PFSC magic bytes `"PFSC"`. -/
def pfscMagic : List Byte := [0x50, 0x46, 0x53, 0x43]

/-- `PfscImage::open`: read the 48-byte header, validate the magic, then
read `original_size / original_block_size + 1` table entries at the block
offsets offset.  (The u64 division panics in Rust when
`original_block_size` is zero; the theorems below assume it nonzero.) -/
def pfscOpen (source : ImageFun) : Except String PfscState :=
  match readExactAt source 0 48 with
  | none => .error "data too small"
  | some headerBuf =>
    if bytesAt headerBuf 0 4 ≠ pfscMagic then .error "invalid magic"
    else
      let blockSize := leU32 headerBuf 0x0C
      let originalBlockSize := leU64 headerBuf 0x10
      let blockOffsetsOffset := leU64 headerBuf 0x18
      let originalSize := leU64 headerBuf 0x28
      let originalBlockCount := originalSize / originalBlockSize + 1
      match readExactAt source blockOffsetsOffset (originalBlockCount * 8) with
      | none => .error "cannot read block mapping"
      | some tableBytes =>
        .ok { source := source
              blockSize := blockSize
              originalBlockSize := originalBlockSize
              compressedBlocks := leU64List tableBytes originalBlockCount
              originalSize := originalSize }

/-- `PfscImage::decompress_block`: compare the compressed size of block
`num` with the original block size and deflate / copy / zero-fill
accordingly. -/
def pfscDecompressBlock (inflate : List Byte → Option (List Byte))
    (st : PfscState) (num : Nat) : Except String (List Byte) :=
  match st.compressedBlocks.get? (num + 1) with
  | none => .error "invalid input"
  | some endOff =>
    let offset := st.compressedBlocks.getD num 0
    let size := endOff - offset
    if size < st.originalBlockSize then
      match readExactAt st.source offset size with
      | none => .error "cannot read compressed data"
      | some compressedBuf =>
        match inflate compressedBuf with
        | none => .error "deflate failed"
        | some res =>
          if res.length = st.blockSize then .ok res
          else .error ("invalid data on PFSC block #" ++ toString num)
    else if size = st.originalBlockSize then
      match readExactAt st.source offset st.blockSize with
      | none => .error "cannot read stored data"
      | some raw => .ok raw
    else
      .ok (List.replicate st.blockSize (0 : Byte))

/-- The loop of `PfscImage::read_at`. -/
def pfscReadLoop (inflate : List Byte → Option (List Byte))
    (st : PfscState) : Nat → Nat → Nat → Except String (List Byte)
  | 0, _, _ => .error "out of fuel"
  | fuel + 1, pos, remaining =>
    let blockIndex := pos / st.blockSize
    let offsetInBlock := pos % st.blockSize
    match pfscDecompressBlock inflate st blockIndex with
    | .error e => .error e
    | .ok blockBuf =>
      let blockEnd := (blockIndex + 1) * st.blockSize
      let validInBlock :=
        if st.originalSize < blockEnd then
          st.originalSize - blockIndex * st.blockSize
        else st.blockSize
      let available := validInBlock - offsetInBlock
      let n := min available remaining
      let chunk := (blockBuf.drop offsetInBlock).take n
      if remaining - n = 0 ∨ st.originalSize ≤ pos + n then .ok chunk
      else
        match pfscReadLoop inflate st fuel (pos + n) (remaining - n) with
        | .ok rest => .ok (chunk ++ rest)
        | .error e => .error e

/-- `PfscImage::read_at`. -/
def pfscReadAt (inflate : List Byte → Option (List Byte)) (st : PfscState)
    (offset bufLen : Nat) : Except String (List Byte) :=
  if bufLen = 0 ∨ st.originalSize ≤ offset then .ok []
  else pfscReadLoop inflate st bufLen offset bufLen

/-- A PFSC image with `original_data_length = 1` and block sizes 2: the
header, followed by the single table entry the code reads. -/
def c4Bytes : List Byte :=
  [0x50, 0x46, 0x53, 0x43, 0, 0, 0, 0, 0, 0, 0, 0,
   2, 0, 0, 0,
   2, 0, 0, 0, 0, 0, 0, 0,
   48, 0, 0, 0, 0, 0, 0, 0,
   0, 0, 0, 0, 0, 0, 0, 0,
   1, 0, 0, 0, 0, 0, 0, 0] ++
  List.replicate 8 0

def c4Src : ImageFun := fun p => c4Bytes[p]?

/-- The state `pfscOpen` produces for `c4Src`. -/
def c4St : PfscState :=
  { source := c4Src
    blockSize := 2
    originalBlockSize := 2
    compressedBlocks := [0]
    originalSize := 1 }

/-- A PFSC image with `original_data_length = 2` and block sizes 2 (the
data length is a multiple of the block size), with its two table
entries. -/
def c4GoodBytes : List Byte :=
  [0x50, 0x46, 0x53, 0x43, 0, 0, 0, 0, 0, 0, 0, 0,
   2, 0, 0, 0,
   2, 0, 0, 0, 0, 0, 0, 0,
   48, 0, 0, 0, 0, 0, 0, 0,
   0, 0, 0, 0, 0, 0, 0, 0,
   2, 0, 0, 0, 0, 0, 0, 0] ++
  List.replicate 16 0

def c4GoodSrc : ImageFun := fun p => c4GoodBytes[p]?

def c4GoodSt : PfscState :=
  { source := c4GoodSrc
    blockSize := 2
    originalBlockSize := 2
    compressedBlocks := [0, 0]
    originalSize := 2 }

/-- A concrete opened PFSC state exercising all three decode rules:
block 0 compressed (size 2 < 4), block 1 stored (size 4), block 2 sparse
(size 14 > 4). -/
def c5St : PfscState :=
  { source := fun p => if p < 20 then some (UInt8.ofNat (p + 1)) else none
    blockSize := 4
    originalBlockSize := 4
    compressedBlocks := [0, 2, 6, 20]
    originalSize := 12 }

/-- A deflate oracle for the witness: any 2-byte stream inflates to four
9-bytes. -/
def c5Inflate : List Byte → Option (List Byte) := fun cb =>
  if cb.length = 2 then some (List.replicate 4 9) else none

/-!
## Inode parsing and block maps (src/orbis-pfs/src/inode.rs), header
parsing (src/orbis-pfs/src/header.rs), the loader (src/orbis-pfs/src/lib.rs),
directory enumeration (src/orbis-pfs/src/directory) and `File::as_slice`
(src/orbis-pfs/src/file.rs)

u32 arithmetic wraps: the contiguous-block range upper bound
`direct[0] + block_count` is reduced `% 2 ^ 32` (Rust release semantics;
a debug build would panic instead of wrapping, and in either build the
claimed vector is not produced).  Inode timestamps, uid/gid and the
retained-but-unverified signatures do not influence any claim and are not
retained in the record; every retained field is read at its `InodeRaw`
offset.
-/

/-- Little-endian u16 at byte offset `off`. -/
def leU16 (l : List Byte) (off : Nat) : Nat :=
  leValue (bytesAt l off 2)

/-- An inode: the `InodeRaw` fields the claims consult plus the block
pointers and the signed-layout flag. -/
structure Inode where
  index : Nat
  mode : Nat
  flags : Nat
  size : Nat
  sizeCompressed : Nat
  blocks : Nat
  directBlocks : List Nat
  indirectBlocks : List Nat
  signed : Bool
deriving Repr, DecidableEq

/-- `Inode::from_raw32_unsigned` / `from_raw32_signed`: parse the 100-byte
header and the 68-byte (unsigned) or 612-byte (signed) pointer tail,
returning the inode and the remaining bytes. -/
def inodeFromRaw32 (signedMode : Bool) (index : Nat) (src : List Byte) :
    Except String (Inode × List Byte) :=
  if src.length < 100 then .error "data too small"
  else
    let headerBytes := src.take 100
    let rest := src.drop 100
    let tailLen := if signedMode then 612 else 68
    if rest.length < tailLen then .error "data too small"
    else
      let blockData := rest.take tailLen
      let directBlocks :=
        if signedMode then
          (List.range 12).map fun i => leU32 blockData (36 * i + 32)
        else
          (List.range 12).map fun i => leU32 blockData (4 * i)
      let indirectBlocks :=
        if signedMode then
          (List.range 5).map fun i => leU32 blockData (432 + 36 * i + 32)
        else
          (List.range 5).map fun i => leU32 blockData (48 + 4 * i)
      .ok ({ index := index
             mode := leU16 headerBytes 0x00
             flags := leU32 headerBytes 0x04
             size := leU64 headerBytes 0x08
             sizeCompressed := leU64 headerBytes 0x10
             blocks := leU32 headerBytes 0x60
             directBlocks := directBlocks
             indirectBlocks := indirectBlocks
             signed := signedMode }, rest.drop tailLen)

/-- `Inode::contiguous_blocks`. -/
def contiguousBlocks (ino : Inode) : Option (Nat × Nat) :=
  if ino.blocks = 0 then none
  else if ino.directBlocks.getD 1 0 = 0xffffffff then
    some (ino.directBlocks.getD 0 0, ino.blocks)
  else if ino.blocks = 1 then
    some (ino.directBlocks.getD 0 0, 1)
  else none

/-- The `read_indirect` scan of a block buffer: one pointer per
`entry_size` chunk (4 bytes unsigned, 36 bytes signed with the pointer in
the last 4), until fewer than `entry_size` bytes remain. -/
def readIndirectEntries (signedMode : Bool) (blockData : List Byte) :
    List Nat :=
  let entrySize := if signedMode then 36 else 4
  let valueOffset := if signedMode then 32 else 0
  (List.range (blockData.length / entrySize)).map fun i =>
    leU32 blockData (i * entrySize + valueOffset)

/-- The double-indirect phase of `Inode::load_block_map`: walk the entries
of the first-level block, reading each second-level block and appending its
pointers until `blockCount` is reached; falling off the end is the
`DoubleIndirectBlockNotSupported` error. -/
def loadIndirect2 (signedMode : Bool) (inodeIndex : Nat) (img : ImageFun)
    (blockSize blockCount : Nat) :
    List Nat → List Nat → Except String (List Nat)
  | _, [] =>
    .error ("double indirect block is not supported for inode #" ++
      toString inodeIndex)
  | cur, i :: restEntries =>
    match readExactAt img (i * blockSize) blockSize with
    | none => .error "cannot read block"
    | some block1 =>
      let entries := readIndirectEntries signedMode block1
      let need := blockCount - cur.length
      if need ≤ entries.length then .ok (cur ++ entries.take need)
      else loadIndirect2 signedMode inodeIndex img blockSize blockCount
        (cur ++ entries) restEntries

/-- `Inode::load_block_map`. -/
def loadBlockMap (ino : Inode) (img : ImageFun) (blockSize : Nat) :
    Except String (List Nat) :=
  let blockCount := ino.blocks
  if blockCount = 0 then .ok []
  else if ino.directBlocks.getD 1 0 = 0xffffffff then
    let start := ino.directBlocks.getD 0 0
    .ok (List.range' start ((start + blockCount) % 2 ^ 32 - start))
  else if blockCount ≤ 12 then .ok (ino.directBlocks.take blockCount)
  else
    match readExactAt img (ino.indirectBlocks.getD 0 0 * blockSize)
        blockSize with
    | none => .error "cannot read block"
    | some block0 =>
      let entries := readIndirectEntries ino.signed block0
      let need := blockCount - ino.directBlocks.length
      if need ≤ entries.length then
        .ok (ino.directBlocks ++ entries.take need)
      else
        match readExactAt img (ino.indirectBlocks.getD 1 0 * blockSize)
            blockSize with
        | none => .error "cannot read block"
        | some block0b =>
          loadIndirect2 ino.signed ino.index img blockSize blockCount
            (ino.directBlocks ++ entries)
            (readIndirectEntries ino.signed block0b)

/-- The parsed PFS superblock fields the loader consults. -/
structure PfsHeader where
  mode : Nat
  blockSize : Nat
  inodeCount : Nat
  inodeBlockCount : Nat
  superRoot : Nat
  keySeed : List Byte
deriving Repr, DecidableEq

/-- Mode bit 0: signed. -/
def modeIsSigned (m : Nat) : Bool := m % 2 = 1

/-- Mode bit 2: encrypted. -/
def modeIsEncrypted (m : Nat) : Bool := m / 4 % 2 = 1

/-- `PfsHeader::from_bytes`: 0x50-byte raw header (version, format,
`ndinodeblock ≤ u32::MAX` checks) plus the 16-byte key seed at 0x370. -/
def headerFromBytes (data : List Byte) : Except String PfsHeader :=
  if data.length < 0x50 then .error "cannot read header"
  else if leU64 data 0x00 ≠ 1 then .error "invalid version"
  else if leU64 data 0x08 ≠ 20130315 then .error "invalid format"
  else if 2 ^ 32 - 1 < leU64 data 0x40 then .error "too many inode blocks"
  else if data.length < 0x380 then .error "cannot read key seed"
  else
    .ok { mode := leU16 data 0x1C
          blockSize := leU32 data 0x20
          inodeCount := leU64 data 0x30
          inodeBlockCount := leU64 data 0x40
          superRoot := leU64 data 0x48
          keySeed := bytesAt data 0x370 16 }

/-- `u32::is_power_of_two`. -/
def isPowTwo (n : Nat) : Bool := n ≠ 0 && n &&& (n - 1) = 0

/-- The `while inodes.len() < inode_count` loop of
`parse_inodes_from_block`: `fuel` is the number of inodes still missing;
a short parse reports `false` (more blocks needed). -/
def parseInodesLoop (signedMode : Bool) :
    Nat → List Byte → List Inode → (List Inode × Bool)
  | 0, _, inodes => (inodes, true)
  | fuel + 1, src, inodes =>
    match inodeFromRaw32 signedMode inodes.length src with
    | .error _ => (inodes, false)
    | .ok (ino, rest) => parseInodesLoop signedMode fuel rest (inodes ++ [ino])

/-- The inode-block loop of `open_inner`: read block `1 + block_num`,
parse inodes out of it, stop once `inode_count` inodes have been read or
the declared inode blocks are exhausted. -/
def readInodes (img : ImageFun) (signedMode : Bool)
    (blockSize inodeCount : Nat) :
    Nat → Nat → List Inode → Except String (List Inode)
  | 0, _, inodes => .ok inodes
  | blocksLeft + 1, blockNum, inodes =>
    match readExactAt img (blockSize + blockNum * blockSize) blockSize with
    | none => .error ("cannot read block #" ++ toString blockNum)
    | some blockData =>
      match parseInodesLoop signedMode (inodeCount - inodes.length)
          blockData inodes with
      | (inodes2, true) => .ok inodes2
      | (inodes2, false) =>
        readInodes img signedMode blockSize inodeCount blocksLeft
          (blockNum + 1) inodes2

/-- A loaded PFS: inodes, precomputed block maps, root index, block
size. -/
structure Pfs where
  inodes : List Inode
  blockMaps : List (List Nat)
  root : Nat
  blockSize : Nat
deriving Repr, DecidableEq

/-- `precompute_block_maps`. -/
def precomputeBlockMaps (inodes : List Inode) (img : ImageFun)
    (blockSize : Nat) : Except String (List (List Nat)) :=
  inodes.mapM fun ino => loadBlockMap ino img blockSize

/-- `open_inner`: validate the block size, read and parse the inodes,
check the super-root, precompute every block map. -/
def openInner (img : ImageFun) (header : PfsHeader) :
    Except String Pfs :=
  if ¬ isPowTwo header.blockSize then .error "invalid block size"
  else
    match readInodes img (modeIsSigned header.mode) header.blockSize
        header.inodeCount header.inodeBlockCount 0 [] with
    | .error e => .error e
    | .ok inodes =>
      if inodes.length ≤ header.superRoot then .error "invalid super-root"
      else
        match precomputeBlockMaps inodes img header.blockSize with
        | .error e => .error e
        | .ok blockMaps =>
          .ok { inodes := inodes
                blockMaps := blockMaps
                root := header.superRoot
                blockSize := header.blockSize }

/-- `open_slice_unencrypted`: parse the header from the slice and run
`open_inner` over the slice-backed image (the backing slice is retained
for zero-copy access). -/
def openSliceUnencrypted (data : List Byte) : Except String Pfs :=
  match headerFromBytes data with
  | .error e => .error e
  | .ok header => openInner (fun p => data[p]?) header

/-- `InodeFlags::is_compressed` (bit 0). -/
def inodeIsCompressed (flags : Nat) : Bool := flags % 2 ≠ 0

/-- `File::as_slice` for a PFS opened over an unencrypted byte slice
`backing` (so `pfs.data` is `Some(backing)`): `None` for compressed files,
an empty borrow for empty files, otherwise the contiguous byte range when
it lies inside the backing slice. -/
def fileAsSlice (backing : List Byte) (pfs : Pfs) (idx : Nat) :
    Option (List Byte) :=
  match pfs.inodes.get? idx with
  | none => none
  | some ino =>
    if inodeIsCompressed ino.flags then none
    else if ino.size = 0 then some []
    else
      match contiguousBlocks ino with
      | none => none
      | some (startBlock, _) =>
        let start := startBlock * pfs.blockSize
        let endOff := start + ino.size
        if endOff ≤ backing.length then some (bytesAt backing start ino.size)
        else none

/-- The two break conditions of `Dirent::read` inside `Directory::open`:
a truncated header or name (`TooSmall`), or the `record_size == 0`
sentinel (`EndOfEntry`). -/
inductive DirentErr where
  | tooSmall
  | endOfEntry
deriving DecidableEq, Repr

/-- `Dirent::read`: 16-byte header, `entsize != 0` check, then the name
bytes.  Returns `(inode, type, name, record_size, rest)`. -/
def direntRead (src : List Byte) :
    Except DirentErr (Nat × Nat × List Byte × Nat × List Byte) :=
  if src.length < 16 then .error .tooSmall
  else
    let ino := leU32 src 0
    let ty := leU32 src 4
    let namelen := leU32 src 8
    let entsize := leU32 src 12
    if entsize = 0 then .error .endOfEntry
    else
      let rest := src.drop 16
      if rest.length < namelen then .error .tooSmall
      else .ok (ino, ty, bytesAt rest 0 namelen, entsize, rest.drop namelen)

/-- `Dirent::padding_size`: `entsize - 16 - namelen` in wrapping usize
arithmetic (Rust release semantics; a debug build would panic on the
underflow the corrupt record triggers). -/
def direntPaddingSize (entsize namelen : Nat) : Nat :=
  (entsize + 2 ^ 64 - (16 + namelen)) % 2 ^ 64

/-- Byte-lexicographic strict order on names (`Vec<u8>` ordering). -/
def bytesLt : List Byte → List Byte → Bool
  | [], [] => false
  | [], _ :: _ => true
  | _ :: _, [] => false
  | a :: xs, b :: ys => if a < b then true else if b < a then false
      else bytesLt xs ys

/-- `BTreeMap::insert` keyed by name (duplicates overwrite). -/
def dirInsert (name : List Byte) (v : Nat × Nat) :
    List (List Byte × Nat × Nat) → List (List Byte × Nat × Nat)
  | [] => [(name, v)]
  | e :: rest =>
    if bytesLt name e.1 then (name, v) :: e :: rest
    else if name = e.1 then (name, v) :: rest
    else e :: dirInsert name v rest

/-- The per-block dirent loop of `Directory::open`: parse records until
the buffer is too small or the sentinel appears; validate the record
size (via the padding skip) and the inode index; map types 2/3 to
entries, skip 4/5, reject anything else.  Each successful record consumes
at least 16 bytes, so `src.length + 1` fuel always suffices. -/
def parseDirentsLoop (inodeCount blockNum : Nat) :
    Nat → List Byte → Nat → List (List Byte × Nat × Nat) →
    Except String (List (List Byte × Nat × Nat))
  | 0, _, _, items => .ok items
  | fuel + 1, next, num, items =>
    match direntRead next with
    | .error _ => .ok items
    | .ok (ino, ty, name, entsize, afterName) =>
      let padding := direntPaddingSize entsize name.length
      if afterName.length < padding then
        .error ("dirent #" ++ toString num ++ " in block #" ++
          toString blockNum ++ " has invalid size")
      else if inodeCount ≤ ino then
        .error ("inode #" ++ toString ino ++ " is not valid")
      else if ty = 2 ∨ ty = 3 then
        parseDirentsLoop inodeCount blockNum fuel (afterName.drop padding)
          (num + 1) (dirInsert name (ino, ty) items)
      else if ty = 4 ∨ ty = 5 then
        parseDirentsLoop inodeCount blockNum fuel (afterName.drop padding)
          (num + 1) items
      else
        .error ("dirent #" ++ toString num ++ " in block #" ++
          toString blockNum ++ " has unknown type")

/-- The block loop of `Directory::open`. -/
def dirOpenBlocks (pfs : Pfs) (img : ImageFun) :
    List Nat → List (List Byte × Nat × Nat) →
    Except String (List (List Byte × Nat × Nat))
  | [], items => .ok items
  | blockNum :: restBlocks, items =>
    match readExactAt img (blockNum * pfs.blockSize) pfs.blockSize with
    | none => .error ("cannot read block #" ++ toString blockNum)
    | some blockData =>
      match parseDirentsLoop pfs.inodes.length blockNum
          (blockData.length + 1) blockData 0 items with
      | .ok items2 => dirOpenBlocks pfs img restBlocks items2
      | .error e => .error e

/-- `Directory::open` for the directory at inode `dirIdx`. -/
def dirOpen (pfs : Pfs) (img : ImageFun) (dirIdx : Nat) :
    Except String (List (List Byte × Nat × Nat)) :=
  match pfs.blockMaps.get? dirIdx with
  | none => .error "invalid handle"
  | some blocks => dirOpenBlocks pfs img blocks []

/-!
## `EncryptedSlice::read_at` (src/orbis-pfs/src/image.rs)

The XTS cipher of the external `xts_mode` crate is abstracted as a
parameter `decrypt : Nat → List Byte → List Byte` (sector index and
ciphertext sector to plaintext sector).
-/

/-- The XTS sector size (4 KiB). -/
def xtsBlockSize : Nat := 0x1000

/-- The copy loop of `EncryptedSlice::read_at` (guard at the top:
`copied < buf.len() && pos < len`). -/
def encReadLoop (data : List Byte) (decrypt : Nat → List Byte → List Byte)
    (encryptedStart : Nat) :
    Nat → Nat → Nat → Except String (List Byte)
  | 0, _, _ => .ok []
  | fuel + 1, pos, remaining =>
    if remaining = 0 ∨ data.length ≤ pos then .ok []
    else
      let block := pos / xtsBlockSize
      let offsetInBlock := pos % xtsBlockSize
      let blockStart := block * xtsBlockSize
      if data.length < blockStart + xtsBlockSize then
        .error ("XTS block #" ++ toString block ++ " out of bounds")
      else
        let scratch := bytesAt data blockStart xtsBlockSize
        let plain := if encryptedStart ≤ block then decrypt block scratch
          else scratch
        let available := xtsBlockSize - offsetInBlock
        let remainingFile := data.length - pos
        let n := min (min available remainingFile) remaining
        let chunk := bytesAt plain offsetInBlock n
        match encReadLoop data decrypt encryptedStart fuel (pos + n)
            (remaining - n) with
        | .ok restBytes => .ok (chunk ++ restBytes)
        | .error e => .error e

/-- `EncryptedSlice::read_at`. -/
def encReadAt (data : List Byte) (decrypt : Nat → List Byte → List Byte)
    (encryptedStart : Nat) (offset bufLen : Nat) :
    Except String (List Byte) :=
  if bufLen = 0 ∨ data.length ≤ offset then .ok []
  else encReadLoop data decrypt encryptedStart bufLen offset bufLen

/-- Builds a concrete image: `len` zero bytes with byte patches. -/
def mkImage (len : Nat) (patches : List (Nat × List Byte)) : List Byte :=
  patches.foldl (fun acc p => patchList acc p.1 p.2) (List.replicate len 0)

/-- u32-overflow inode for the contiguous branch: one block starting at
`u32::MAX` with the contiguity marker. -/
def c6Inode : Inode :=
  { index := 0
    mode := 0x8000
    flags := 0
    size := 0x10000
    sizeCompressed := 0x10000
    blocks := 1
    directBlocks := 0xffffffff :: 0xffffffff :: List.replicate 10 0
    indirectBlocks := List.replicate 5 0
    signed := false }

/-- The specification's contiguous scenario: `direct = [100, 0xFFFFFFFF, …]`,
`block_count = 4`. -/
def c6GoodInode : Inode :=
  { index := 0
    mode := 0x8000
    flags := 0
    size := 0x40000
    sizeCompressed := 0x40000
    blocks := 4
    directBlocks := 100 :: 0xffffffff :: List.replicate 10 0
    indirectBlocks := List.replicate 5 0
    signed := false }

/-- A minimal valid unencrypted PFS image (block size 256, one inode in
block 1) whose single inode declares `size = 1` but `block_count = 0`. -/
def c7Image : List Byte :=
  mkImage 896
    [(0x00, [1, 0, 0, 0, 0, 0, 0, 0]),
     (0x08, [0x0B, 0x2A, 0x33, 0x01]),
     (0x20, [0, 1, 0, 0]),
     (0x30, [1]),
     (0x40, [1]),
     (256 + 0x08, [1])]

/-- The PFS `openSliceUnencrypted` produces for `c7Image`. -/
def c7Pfs : Pfs :=
  { inodes := [{ index := 0
                 mode := 0
                 flags := 0
                 size := 1
                 sizeCompressed := 0
                 blocks := 0
                 directBlocks := List.replicate 12 0
                 indirectBlocks := List.replicate 5 0
                 signed := false }]
    blockMaps := [[]]
    root := 0
    blockSize := 256 }

/-- Like `c7Image`, but the inode is an uncompressed single-block file
(`block_count = 1`, `direct[0] = 0`) whose declared `size = 1000` runs past
the 896-byte backing slice. -/
def c10Image : List Byte :=
  mkImage 896
    [(0x00, [1, 0, 0, 0, 0, 0, 0, 0]),
     (0x08, [0x0B, 0x2A, 0x33, 0x01]),
     (0x20, [0, 1, 0, 0]),
     (0x30, [1]),
     (0x40, [1]),
     (256 + 0x08, [0xE8, 0x03]),
     (256 + 0x60, [1])]

/-- The PFS `openSliceUnencrypted` produces for `c10Image`. -/
def c10Pfs : Pfs :=
  { inodes := [{ index := 0
                 mode := 0
                 flags := 0
                 size := 1000
                 sizeCompressed := 0
                 blocks := 1
                 directBlocks := List.replicate 12 0
                 indirectBlocks := List.replicate 5 0
                 signed := false }]
    blockMaps := [[0]]
    root := 0
    blockSize := 256 }

/-- An in-bounds variant: a 10-byte uncompressed single-block file stored
in block 1 (`direct[0] = 1`). -/
def c10GoodImage : List Byte :=
  mkImage 896
    [(0x00, [1, 0, 0, 0, 0, 0, 0, 0]),
     (0x08, [0x0B, 0x2A, 0x33, 0x01]),
     (0x20, [0, 1, 0, 0]),
     (0x30, [1]),
     (0x40, [1]),
     (256 + 0x08, [10]),
     (256 + 0x60, [1]),
     (256 + 100, [1])]

/-- The PFS `openSliceUnencrypted` produces for `c10GoodImage`. -/
def c10GoodPfs : Pfs :=
  { inodes := [{ index := 0
                 mode := 0
                 flags := 0
                 size := 10
                 sizeCompressed := 0
                 blocks := 1
                 directBlocks := 1 :: List.replicate 11 0
                 indirectBlocks := List.replicate 5 0
                 signed := false }]
    blockMaps := [[1]]
    root := 0
    blockSize := 256 }

/-- A 1024-byte PFS image whose root directory (block 3) holds one dirent
record with `record_size = 20`, `name_length = 300`: nonzero but smaller
than header + name, with the name running past the block end. -/
def c9Image : List Byte :=
  mkImage 1024
    [(0x00, [1, 0, 0, 0, 0, 0, 0, 0]),
     (0x08, [0x0B, 0x2A, 0x33, 0x01]),
     (0x20, [0, 1, 0, 0]),
     (0x30, [1]),
     (0x40, [1]),
     (256 + 0x60, [1]),
     (256 + 100, [3]),
     (768 + 4, [2]),
     (768 + 8, [0x2C, 0x01]),
     (768 + 12, [20])]

/-- The PFS `openSliceUnencrypted` produces for `c9Image`. -/
def c9Pfs : Pfs :=
  { inodes := [{ index := 0
                 mode := 0
                 flags := 0
                 size := 0
                 sizeCompressed := 0
                 blocks := 1
                 directBlocks := 3 :: List.replicate 11 0
                 indirectBlocks := List.replicate 5 0
                 signed := false }]
    blockMaps := [[3]]
    root := 0
    blockSize := 256 }

/-! ### Theorems about `pfs_read_at` -/

theorem specFileRead_length (v : PfsView) :
    ∀ n offset l, specFileRead v offset n = some l → l.length = n := by
  intro n
  induction n with
  | zero => intro offset l h; simp [specFileRead] at h; simp [← h]
  | succ m ih =>
    intro offset l h
    simp only [specFileRead, Option.bind_eq_bind, Option.bind_eq_some,
      Option.map_eq_some'] at h
    obtain ⟨b, _, l2, hl2, rfl⟩ := h
    simp [ih (offset + 1) l2 hl2]

theorem specFileRead_split (v : PfsView) :
    ∀ t n offset, t ≤ n →
      specFileRead v offset n =
        (specFileRead v offset t).bind fun l1 =>
          (specFileRead v (offset + t) (n - t)).map fun l2 => l1 ++ l2 := by
  intro t
  induction t with
  | zero => intro n offset _; simp [specFileRead]
  | succ s ih =>
    intro n offset hn
    obtain ⟨m, rfl⟩ : ∃ m, n = m + 1 := ⟨n - 1, by omega⟩
    have hs : s ≤ m := by omega
    simp only [specFileRead, ih m (offset + 1) hs]
    have h1 : offset + 1 + s = offset + (s + 1) := by omega
    have h2 : m + 1 - (s + 1) = m - s := by omega
    rw [h1, h2]
    cases specFileByte v offset with
    | none => rfl
    | some b =>
      cases specFileRead v (offset + 1) s with
      | none => rfl
      | some l1 =>
        cases specFileRead v (offset + (s + 1)) (m - s) with
        | none => rfl
        | some l2 => rfl

/-- Within one block, division and remainder by the block size are constant
resp. affine. -/
theorem div_mod_in_block {bs pos k : Nat} (hbs : 0 < bs)
    (h : pos + k < (pos / bs + 1) * bs) :
    (pos + k) / bs = pos / bs ∧ (pos + k) % bs = pos % bs + k := by
  have hqr := Nat.div_add_mod pos bs
  have hexp : (pos / bs + 1) * bs = bs * (pos / bs) + bs := by ring
  have hrk : pos % bs + k < bs := by omega
  have hpk : pos + k = bs * (pos / bs) + (pos % bs + k) := by omega
  constructor
  · rw [hpk, Nat.mul_add_div hbs, Nat.div_eq_of_lt hrk]
    omega
  · rw [hpk, Nat.mul_add_mod, Nat.mod_eq_of_lt hrk]

theorem lt_block_end {bs pos : Nat} (hbs : 0 < bs) :
    pos < (pos / bs + 1) * bs := by
  have hqr := Nat.div_add_mod pos bs
  have hexp : (pos / bs + 1) * bs = bs * (pos / bs) + bs := by ring
  have := Nat.mod_lt pos hbs
  omega

theorem specFileRead_head {v : PfsView} {n pos : Nat} {l : List Byte}
    (hn : 0 < n) (h : specFileRead v pos n = some l) :
    ∃ b, v.blockMap.get? (pos / v.blockSize) = some b := by
  obtain ⟨m, rfl⟩ : ∃ m, n = m + 1 := ⟨n - 1, by omega⟩
  simp only [specFileRead, Option.bind_eq_bind, Option.bind_eq_some] at h
  obtain ⟨byte, hbyte, -⟩ := h
  simp only [specFileByte, Option.bind_eq_bind, Option.bind_eq_some] at hbyte
  obtain ⟨b, hb, -⟩ := hbyte
  exact ⟨b, hb⟩

/-- Within a single block, the claim's expected bytes form one contiguous
run of image bytes starting at the block's mapped physical offset. -/
theorem specFileRead_eq_readExactAt {v : PfsView} (hbs : 0 < v.blockSize) :
    ∀ t pos b, v.blockMap.get? (pos / v.blockSize) = some b →
      pos + t ≤ (pos / v.blockSize + 1) * v.blockSize →
      specFileRead v pos t =
        readExactAt v.img (b * v.blockSize + pos % v.blockSize) t := by
  intro t
  induction t with
  | zero => intro pos b _ _; rfl
  | succ s ih =>
    intro pos b hb hle
    have hbyte : specFileByte v pos = v.img (b * v.blockSize + pos % v.blockSize) := by
      simp only [specFileByte]
      rw [hb]
      rfl
    cases s with
    | zero =>
      simp only [specFileRead, readExactAt, hbyte]
    | succ u =>
      have hlt : pos + 1 < (pos / v.blockSize + 1) * v.blockSize := by omega
      obtain ⟨hdiv, hmod⟩ := div_mod_in_block hbs hlt
      have hb1 : v.blockMap.get? ((pos + 1) / v.blockSize) = some b := by
        rw [hdiv]; exact hb
      have hle1 : (pos + 1) + (u + 1) ≤ ((pos + 1) / v.blockSize + 1) * v.blockSize := by
        rw [hdiv]; omega
      have hrec := ih (pos + 1) b hb1 hle1
      have haddr : b * v.blockSize + (pos + 1) % v.blockSize =
          b * v.blockSize + pos % v.blockSize + 1 := by
        rw [hmod]; omega
      rw [haddr] at hrec
      have lhs : specFileRead v pos (u + 1 + 1) =
          (specFileByte v pos).bind fun byte =>
            (specFileRead v (pos + 1) (u + 1)).map fun l => byte :: l := rfl
      have rhs : readExactAt v.img (b * v.blockSize + pos % v.blockSize) (u + 1 + 1) =
          (v.img (b * v.blockSize + pos % v.blockSize)).bind fun byte =>
            (readExactAt v.img (b * v.blockSize + pos % v.blockSize + 1) (u + 1)).map
              fun l => byte :: l := rfl
      rw [lhs, rhs, hbyte, hrec]

/-- Main loop invariant of `pfs_read_at`, success case: when every block
touched by the remaining read is mapped and every needed image byte exists,
the loop returns exactly the claim's expected bytes. -/
theorem pfsReadLoop_ok (v : PfsView) (hbs : 0 < v.blockSize) :
    ∀ fuel remaining pos l, remaining ≤ fuel → 0 < remaining →
      pos < v.fileSize →
      specFileRead v pos (min remaining (v.fileSize - pos)) = some l →
      pfsReadLoop v fuel pos remaining = .ok l := by
  intro fuel
  induction fuel with
  | zero => intro remaining pos l h1 h2 _ _; omega
  | succ f ih =>
    intro remaining pos l hfuel hrem hpos hspec
    have hnpos : 0 < min remaining (v.fileSize - pos) := by omega
    obtain ⟨b, hb⟩ := specFileRead_head hnpos hspec
    have hposBE : pos < (pos / v.blockSize + 1) * v.blockSize := lt_block_end hbs
    set blockEnd := (pos / v.blockSize + 1) * v.blockSize with hBE
    set toRead := min (min blockEnd v.fileSize - pos) remaining with hTR
    have htpos : 0 < toRead := by omega
    have htle : toRead ≤ min remaining (v.fileSize - pos) := by omega
    rw [specFileRead_split v toRead _ pos htle] at hspec
    simp only [Option.bind_eq_bind, Option.bind_eq_some, Option.map_eq_some'] at hspec
    obtain ⟨l1, hl1, l2, hl2, rfl⟩ := hspec
    have hchunk : readExactAt v.img (b * v.blockSize + pos % v.blockSize) toRead = some l1 := by
      rw [← specFileRead_eq_readExactAt hbs toRead pos b hb (by omega)]
      exact hl1
    show pfsReadLoop v (f + 1) pos remaining = .ok (l1 ++ l2)
    rw [pfsReadLoop]
    simp only [hb, hchunk]
    by_cases hstop : remaining - toRead = 0 ∨ v.fileSize ≤ pos + toRead
    · have heq : toRead = min remaining (v.fileSize - pos) := by omega
      rw [← heq, Nat.sub_self] at hl2
      simp only [specFileRead, Option.some.injEq] at hl2
      subst hl2
      rw [if_pos hstop]
      simp
    · rw [if_neg hstop]
      push_neg at hstop
      have hrec : pfsReadLoop v f (pos + toRead) (remaining - toRead) = .ok l2 := by
        apply ih
        · omega
        · omega
        · omega
        · have : min (remaining - toRead) (v.fileSize - (pos + toRead)) =
              min remaining (v.fileSize - pos) - toRead := by omega
          rw [this]
          exact hl2
      rw [hrec]

/-- Main loop invariant of `pfs_read_at`, failure case: when some logical
block touched by the remaining read is outside the block map, the loop
returns an error. -/
theorem pfsReadLoop_err (v : PfsView) (hbs : 0 < v.blockSize) :
    ∀ fuel remaining pos, remaining ≤ fuel → 0 < remaining →
      pos < v.fileSize →
      (∃ k, k < min remaining (v.fileSize - pos) ∧
        v.blockMap.length ≤ (pos + k) / v.blockSize) →
      ∃ e, pfsReadLoop v fuel pos remaining = .error e := by
  intro fuel
  induction fuel with
  | zero => intro remaining pos h1 h2 _ _; omega
  | succ f ih =>
    intro remaining pos hfuel hrem hpos hbad
    obtain ⟨k, hk, hkbad⟩ := hbad
    cases hb : v.blockMap.get? (pos / v.blockSize) with
    | none =>
      rw [pfsReadLoop]
      simp only [hb]
      exact ⟨_, rfl⟩
    | some b =>
      have hblt : pos / v.blockSize < v.blockMap.length := by
        have := List.get?_eq_some.mp hb
        exact this.1
      have hposBE : pos < (pos / v.blockSize + 1) * v.blockSize := lt_block_end hbs
      set blockEnd := (pos / v.blockSize + 1) * v.blockSize with hBE
      set toRead := min (min blockEnd v.fileSize - pos) remaining with hTR
      have htpos : 0 < toRead := by omega
      -- every index below `toRead` stays in the current (mapped) block,
      -- so the bad index lies beyond the current chunk
      have hkbig : toRead ≤ k := by
        by_contra hklt
        push_neg at hklt
        have hin : pos + k < blockEnd := by omega
        obtain ⟨hdiv, -⟩ := div_mod_in_block hbs hin
        omega
      rw [pfsReadLoop]
      simp only [hb]
      cases hread : readExactAt v.img (b * v.blockSize + pos % v.blockSize) toRead with
      | none =>
        simp only [hread]
        exact ⟨_, rfl⟩
      | some bytes =>
        simp only [hread]
        have hstop : ¬ (remaining - toRead = 0 ∨ v.fileSize ≤ pos + toRead) := by
          rintro (h | h) <;> omega
        rw [if_neg hstop]
        have hrec : ∃ e, pfsReadLoop v f (pos + toRead) (remaining - toRead) = .error e := by
          apply ih
          · omega
          · omega
          · omega
          · refine ⟨k - toRead, by omega, ?_⟩
            have : pos + toRead + (k - toRead) = pos + k := by omega
            rw [this]
            exact hkbad
        obtain ⟨e, he⟩ := hrec
        rw [he]
        exact ⟨e, rfl⟩

/-- C1: For every opened Pfs, file inode, offset, and buffer: if the buffer
is empty or `offset ≥ inode.size`, `File::read_at` returns `Ok(0)`;
otherwise it returns `n = min(buf.len, size - offset)` bytes and for every
`k < n` the byte written to `buf[k]` is the byte read from the underlying
`ImageSource` at physical offset
`block_map[(offset+k) / block_size] * block_size + (offset+k) % block_size`,
failing with an error if a touched logical block index is outside the block
map.  (The hypotheses `blockMap.length < 2 ^ 32` and `blockSize ≤ 2 ^ 31`
hold for every opened PFS — the block map length is an u32 count and the
block size an u32 power of two — and make the `Nat` model of the u64
arithmetic exact.) -/
theorem c1_pfs_read_at_correct (v : PfsView) (hbs : 0 < v.blockSize)
    (_hmap32 : v.blockMap.length < 2 ^ 32) (_hbs31 : v.blockSize ≤ 2 ^ 31)
    (offset bufLen : Nat) :
    (bufLen = 0 ∨ v.fileSize ≤ offset → pfsReadAt v offset bufLen = .ok []) ∧
    (∀ l, specFileRead v offset (min bufLen (v.fileSize - offset)) = some l →
      pfsReadAt v offset bufLen = .ok l ∧
      l.length = min bufLen (v.fileSize - offset)) ∧
    ((∃ k, k < min bufLen (v.fileSize - offset) ∧
        v.blockMap.length ≤ (offset + k) / v.blockSize) →
      ∃ e, pfsReadAt v offset bufLen = .error e) := by
  refine ⟨?_, ?_, ?_⟩
  · intro h
    rw [pfsReadAt, if_pos h]
  · intro l hspec
    by_cases h : bufLen = 0 ∨ v.fileSize ≤ offset
    · have hmin : min bufLen (v.fileSize - offset) = 0 := by omega
      rw [hmin] at hspec
      simp only [specFileRead, Option.some.injEq] at hspec
      subst hspec
      rw [pfsReadAt, if_pos h]
      simp [hmin]
    · push_neg at h
      refine ⟨?_, specFileRead_length v _ _ _ hspec⟩
      rw [pfsReadAt, if_neg (by omega)]
      exact pfsReadLoop_ok v hbs bufLen bufLen offset l le_rfl (by omega) (by omega) hspec
  · rintro ⟨k, hk, hkbad⟩
    by_cases h : bufLen = 0 ∨ v.fileSize ≤ offset
    · have : min bufLen (v.fileSize - offset) = 0 := by omega
      omega
    · push_neg at h
      rw [pfsReadAt, if_neg (by omega)]
      exact pfsReadLoop_err v hbs bufLen bufLen offset le_rfl (by omega) (by omega)
        ⟨k, hk, hkbad⟩

theorem c1_pfs_read_at_correct_witness :
    pfsReadAt c1View 2 10 = .ok [(10 : Byte), 11, 28] :=
  ((c1_pfs_read_at_correct c1View (by decide) (by decide) (by decide) 2 10).2.1
    [(10 : Byte), 11, 28] (by decide)).1

end Orbis


/-! ### Theorems about the CoW overlay -/

namespace Orbis

theorem SegGap.disj {a b : Segment} (h : SegGap a b) : SegDisj a b :=
  Or.inl (Nat.le_of_lt h)

theorem patchList_length {buf src : List Byte} {start : Nat}
    (h : start + src.length ≤ buf.length) :
    (patchList buf start src).length = buf.length := by
  simp only [patchList, List.length_append, List.length_take, List.length_drop]
  omega

theorem patchList_getElem? {buf src : List Byte} {start : Nat}
    (h : start + src.length ≤ buf.length) (i : Nat) :
    (patchList buf start src)[i]? =
      if start ≤ i ∧ i < start + src.length then src[i - start]?
      else buf[i]? := by
  have hmin : (buf.take start).length = start := by
    simp only [List.length_take]; omega
  simp only [patchList, List.getElem?_append, List.length_append, hmin,
    List.getElem?_take, List.getElem?_drop]
  split_ifs <;> first | rfl | omega | (congr 1; omega)

theorem patchList_getD {buf src : List Byte} {start : Nat}
    (h : start + src.length ≤ buf.length) (i : Nat) :
    (patchList buf start src).getD i 0 =
      if start ≤ i ∧ i < start + src.length then src.getD (i - start) 0
      else buf.getD i 0 := by
  simp only [List.getD_eq_getElem?_getD, patchList_getElem? h]
  split_ifs <;> rfl

/-- On a `Pairwise`-ordered list, a predicate that is downward closed along
the order is decided by its first failure: `takeWhile` equals `filter`. -/
theorem takeWhile_eq_filter_of_pairwise {α : Type} {R : α → α → Prop}
    {p : α → Bool} :
    ∀ {r : List α}, r.Pairwise R →
      (∀ a b, R a b → p a = false → p b = false) →
      r.takeWhile p = r.filter p := by
  intro r
  induction r with
  | nil => intro _ _; rfl
  | cons a rest ih =>
    intro hp hmono
    rw [List.pairwise_cons] at hp
    cases hpa : p a with
    | true =>
      simp only [List.takeWhile_cons, List.filter_cons, hpa, if_true]
      rw [ih hp.2 hmono]
    | false =>
      have hall : ∀ b ∈ rest, p b = false := fun b hb =>
        hmono a b (hp.1 b hb) hpa
      have hnil : rest.filter p = [] :=
        List.filter_eq_nil_iff.mpr fun b hb => by simp [hall b hb]
      simp [List.takeWhile_cons, List.filter_cons, hpa, hnil]

theorem listReadExactAt_eq_some {data : List Byte} {offset n : Nat}
    (h : offset + n ≤ data.length) :
    listReadExactAt data offset n = some ((data.drop offset).take n) := by
  unfold listReadExactAt
  by_cases hn : n = 0
  · subst hn; simp
  · rw [if_neg hn, if_pos h]

theorem listReadExactAt_zero (data : List Byte) (offset : Nat) :
    listReadExactAt data offset 0 = some [] := by
  unfold listReadExactAt
  simp

theorem listReadExactAt_eq_none {data : List Byte} {offset n : Nat}
    (hn : 0 < n) (h : data.length < offset + n) :
    listReadExactAt data offset n = none := by
  unfold listReadExactAt
  rw [if_neg (by omega), if_neg (by omega)]

/-- Base fill entirely inside the base: plain slice. -/
theorem cowMergedInit_eq_full {base : List Byte} {s n : Nat}
    (h : s + n ≤ base.length) :
    cowMergedInit base s n = (base.drop s).take n := by
  unfold cowMergedInit
  rw [listReadExactAt_eq_some h]

/-- Base fill overrunning the base end: available suffix plus zero fill. -/
theorem cowMergedInit_eq_mid {base : List Byte} {s n : Nat}
    (hn : 0 < n) (hlt : base.length < s + n) (hin : s < base.length) :
    cowMergedInit base s n =
      base.drop s ++ List.replicate (n - (base.length - s)) 0 := by
  unfold cowMergedInit
  rw [listReadExactAt_eq_none hn hlt]
  simp only [if_pos hin]
  have hmin : min (base.length - s) n = base.length - s := by omega
  rw [hmin, listReadExactAt_eq_some (by omega)]
  have htake : (base.drop s).take (base.length - s) = base.drop s := by
    apply List.take_of_length_le
    simp [List.length_drop]
  rw [htake, List.drop_replicate]

/-- Base fill entirely past the base end: all zeros. -/
theorem cowMergedInit_eq_out {base : List Byte} {s n : Nat}
    (hn : 0 < n) (hout : base.length ≤ s) :
    cowMergedInit base s n = List.replicate n 0 := by
  unfold cowMergedInit
  rw [listReadExactAt_eq_none hn (by omega)]
  simp only [if_neg (by omega : ¬ s < base.length)]

theorem cowMergedInit_length (base : List Byte) (mergedStart mergedLen : Nat) :
    (cowMergedInit base mergedStart mergedLen).length = mergedLen := by
  by_cases hn : mergedLen = 0
  · subst hn
    unfold cowMergedInit
    rw [listReadExactAt_zero]
    rfl
  · by_cases hfull : mergedStart + mergedLen ≤ base.length
    · rw [cowMergedInit_eq_full hfull]
      simp only [List.length_take, List.length_drop]
      omega
    · by_cases hin : mergedStart < base.length
      · rw [cowMergedInit_eq_mid (by omega) (by omega) hin]
        simp only [List.length_append, List.length_drop, List.length_replicate]
        omega
      · rw [cowMergedInit_eq_out (by omega) (by omega)]
        simp

theorem getD_eq_zero_of_le {l : List Byte} {i : Nat} (h : l.length ≤ i) :
    l.getD i 0 = 0 := by
  rw [List.getD_eq_getElem?_getD, List.getElem?_eq_none (by omega)]
  rfl

theorem baseByte_eq_zero {base : List Byte} {p : Nat} (h : base.length ≤ p) :
    baseByte base p = 0 :=
  getD_eq_zero_of_le h

theorem cowMergedInit_getD (base : List Byte) (mergedStart mergedLen i : Nat)
    (hi : i < mergedLen) :
    (cowMergedInit base mergedStart mergedLen).getD i 0 =
      baseByte base (mergedStart + i) := by
  unfold baseByte
  simp only [List.getD_eq_getElem?_getD]
  by_cases hfull : mergedStart + mergedLen ≤ base.length
  · rw [cowMergedInit_eq_full hfull, List.getElem?_take, if_pos hi,
      List.getElem?_drop]
  · by_cases hin : mergedStart < base.length
    · rw [cowMergedInit_eq_mid (by omega) (by omega) hin,
        List.getElem?_append]
      simp only [List.length_drop]
      by_cases hilt : i < base.length - mergedStart
      · rw [if_pos hilt, List.getElem?_drop]
      · rw [if_neg hilt, List.getElem?_replicate,
          if_pos (by omega), List.getElem?_eq_none (l := base) (by omega)]
        rfl
    · rw [cowMergedInit_eq_out (by omega) (by omega), List.getElem?_replicate,
        if_pos hi, List.getElem?_eq_none (l := base) (by omega)]
      rfl

theorem mem_segInsert_sub {s u : Segment} :
    ∀ {l : List Segment}, u ∈ segInsert s l → u = s ∨ u ∈ l := by
  intro l
  induction l with
  | nil => intro h; simp [segInsert] at h; exact Or.inl h
  | cons t rest ih =>
    intro h
    unfold segInsert at h
    split_ifs at h with h1 h2
    · rcases List.mem_cons.mp h with h3 | h3
      · exact Or.inl h3
      · exact Or.inr h3
    · rcases List.mem_cons.mp h with h3 | h3
      · exact Or.inl h3
      · exact Or.inr (List.mem_cons_of_mem t h3)
    · rcases List.mem_cons.mp h with h3 | h3
      · exact Or.inr (by simp [h3])
      · rcases ih h3 with h4 | h4
        · exact Or.inl h4
        · exact Or.inr (List.mem_cons_of_mem t h4)

theorem self_mem_segInsert {s : Segment} :
    ∀ {l : List Segment}, s ∈ segInsert s l := by
  intro l
  induction l with
  | nil => simp [segInsert]
  | cons t rest ih =>
    unfold segInsert
    split_ifs <;> simp [ih]

theorem mem_segInsert_of_mem {s u : Segment}
    (hne : u.1 ≠ s.1) :
    ∀ {l : List Segment}, u ∈ l → u ∈ segInsert s l := by
  intro l
  induction l with
  | nil => intro h; cases h
  | cons t rest ih =>
    intro h
    unfold segInsert
    rcases List.mem_cons.mp h with rfl | h'
    · split_ifs with h1 h2
      · simp
      · exact absurd h2.symm hne
      · simp
    · split_ifs <;> simp [ih h', h', List.mem_cons]

theorem segInsert_pairwise {s : Segment} :
    ∀ {l : List Segment}, l.Pairwise SegGap →
      (∀ t ∈ l, SegGap t s ∨ SegGap s t) →
      (segInsert s l).Pairwise SegGap := by
  intro l
  induction l with
  | nil => intro _ _; simp [segInsert]
  | cons t rest ih =>
    intro hp hcompat
    rw [List.pairwise_cons] at hp
    obtain ⟨hhead, hrest⟩ := hp
    unfold segInsert
    split_ifs with h1 h2
    · -- s inserted in front: s gaps with t and with everything in rest
      have hst : SegGap s t := by
        rcases hcompat t (by simp) with h | h
        · exact absurd h (by unfold SegGap at *; omega)
        · exact h
      refine List.pairwise_cons.mpr ⟨?_, List.pairwise_cons.mpr ⟨hhead, hrest⟩⟩
      intro u hu
      rcases List.mem_cons.mp hu with rfl | hu'
      · exact hst
      · rcases hcompat u (by simp [hu']) with h | h
        · -- u ends before s starts, yet t gaps before u: impossible
          have := hhead u hu'
          unfold SegGap at *
          omega
        · exact h
    · -- equal keys cannot happen: either gap direction contradicts s.1 = t.1
      rcases hcompat t (by simp) with h | h <;>
        (unfold SegGap at h; omega)
    · -- s goes further right: t gaps with s and with segInsert s rest
      refine List.pairwise_cons.mpr ⟨?_, ?_⟩
      · intro u hu
        rcases mem_segInsert_sub hu with rfl | hu'
        · rcases hcompat t (by simp) with h | h
          · exact h
          · unfold SegGap at *; omega
        · exact hhead u hu'
      · exact ih hrest fun u hu => hcompat u (by simp [hu])

theorem ovByte_cons_pos {a : Segment} {rest : List Segment} {p : Nat}
    (h : covers a p) :
    ovByte (a :: rest) p = some (a.2.getD (p - a.1) 0) := by
  unfold ovByte
  rw [List.find?_cons_of_pos _ (by simpa using h)]

theorem ovByte_cons_neg {a : Segment} {rest : List Segment} {p : Nat}
    (h : ¬ covers a p) :
    ovByte (a :: rest) p = ovByte rest p := by
  unfold ovByte
  rw [List.find?_cons_of_neg _ (by simpa using h)]

theorem ovByte_eq_none {p : Nat} :
    ∀ {l : List Segment}, (∀ s ∈ l, ¬ covers s p) → ovByte l p = none := by
  intro l h
  unfold ovByte
  rw [List.find?_eq_none.mpr fun s hs => by simpa using h s hs]

theorem ovByte_eq_some {p : Nat} {s : Segment} :
    ∀ {l : List Segment}, l.Pairwise SegDisj → s ∈ l → covers s p →
      ovByte l p = some (s.2.getD (p - s.1) 0) := by
  intro l
  induction l with
  | nil => intro _ h _; cases h
  | cons a rest ih =>
    intro hp hs hc
    rw [List.pairwise_cons] at hp
    by_cases hca : covers a p
    · obtain rfl : s = a := by
        rcases List.mem_cons.mp hs with rfl | hs'
        · rfl
        · have := hp.1 s hs'
          unfold SegDisj covers at *
          omega
      exact ovByte_cons_pos hca
    · have hs' : s ∈ rest := by
        rcases List.mem_cons.mp hs with rfl | hs'
        · exact absurd hc hca
        · exact hs'
      rw [ovByte_cons_neg hca]
      exact ih hp.2 hs' hc

theorem foldl_patch_length (S : Nat) :
    ∀ (P : List Segment) (init : List Byte),
      (∀ t ∈ P, S ≤ t.1 ∧ t.1 + t.2.length ≤ S + init.length) →
      (P.foldl (fun buf t => patchList buf (t.1 - S) t.2) init).length =
        init.length := by
  intro P
  induction P with
  | nil => intro init _; rfl
  | cons t rest ih =>
    intro init hr
    have ht := hr t (by simp)
    have hlen : (patchList init (t.1 - S) t.2).length = init.length :=
      patchList_length (by omega)
    rw [List.foldl_cons, ih _ (fun u hu => by
      rw [hlen]; exact hr u (by simp [hu])), hlen]

theorem foldl_patch_getD (S : Nat) :
    ∀ (P : List Segment) (init : List Byte), P.Pairwise SegDisj →
      (∀ t ∈ P, S ≤ t.1 ∧ t.1 + t.2.length ≤ S + init.length) →
      ∀ i,
      (P.foldl (fun buf t => patchList buf (t.1 - S) t.2) init).getD i 0 =
        match ovByte P (S + i) with
        | some b => b
        | none => init.getD i 0 := by
  intro P
  induction P with
  | nil => intro init _ _ i; rfl
  | cons t rest ih =>
    intro init hp hr i
    rw [List.pairwise_cons] at hp
    have ht := hr t (by simp)
    have hlen : (patchList init (t.1 - S) t.2).length = init.length :=
      patchList_length (by omega)
    rw [List.foldl_cons,
      ih _ hp.2 (fun u hu => by rw [hlen]; exact hr u (by simp [hu])) i]
    by_cases hct : covers t (S + i)
    · have hnone : ovByte rest (S + i) = none := by
        apply ovByte_eq_none
        intro u hu
        have := hp.1 u hu
        unfold SegDisj covers at *
        omega
      simp only [hnone, ovByte_cons_pos hct]
      rw [patchList_getD (by omega), if_pos (by unfold covers at hct; omega)]
      congr 1
      omega
    · rw [ovByte_cons_neg hct]
      cases hrest : ovByte rest (S + i) with
      | some b => simp only [hrest]
      | none =>
        simp only [hrest]
        rw [patchList_getD (by omega), if_neg (by unfold covers at hct; omega)]

end Orbis

namespace Orbis

theorem pairwise_mem_rel {α : Type} {R : α → α → Prop} :
    ∀ {l : List α}, l.Pairwise R → ∀ {a b}, a ∈ l → b ∈ l → a ≠ b →
      R a b ∨ R b a := by
  intro l
  induction l with
  | nil => intro _ a b ha; cases ha
  | cons x rest ih =>
    intro hp a b ha hb hne
    rw [List.pairwise_cons] at hp
    rcases List.mem_cons.mp ha with rfl | ha'
    · rcases List.mem_cons.mp hb with rfl | hb'
      · exact absurd rfl hne
      · exact Or.inl (hp.1 b hb')
    · rcases List.mem_cons.mp hb with rfl | hb'
      · exact Or.inr (hp.1 a ha')
      · exact ih hp.2 ha' hb' hne

theorem ovByte_some_inv {l : List Segment} {p : Nat} {b : Byte}
    (h : ovByte l p = some b) :
    ∃ t ∈ l, covers t p ∧ b = t.2.getD (p - t.1) 0 := by
  unfold ovByte at h
  cases hf : l.find? (fun s => decide (covers s p)) with
  | none => rw [hf] at h; cases h
  | some t =>
    rw [hf] at h
    refine ⟨t, List.mem_of_find?_eq_some hf, ?_, ?_⟩
    · simpa using List.find?_some hf
    · cases h; rfl

theorem ovByte_none_inv {l : List Segment} {p : Nat}
    (h : ovByte l p = none) : ∀ t ∈ l, ¬ covers t p := by
  unfold ovByte at h
  cases hf : l.find? (fun s => decide (covers s p)) with
  | some t => rw [hf] at h; cases h
  | none =>
    intro t ht hc
    have := List.find?_eq_none.mp hf t ht
    simp [hc] at this

theorem lt_foldr_min {c b : Nat} :
    ∀ {l : List Nat}, (∀ x ∈ l, c < x) → c < b → c < l.foldr min b := by
  intro l
  induction l with
  | nil => intro _ h; exact h
  | cons x rest ih =>
    intro hl hb
    have : c < rest.foldr min b := ih (fun y hy => hl y (by simp [hy])) hb
    simp only [List.foldr_cons]
    have := hl x (by simp)
    omega

theorem foldr_max_lt {c b : Nat} :
    ∀ {l : List Nat}, (∀ x ∈ l, x < c) → b < c → l.foldr max b < c := by
  intro l
  induction l with
  | nil => intro _ h; exact h
  | cons x rest ih =>
    intro hl hb
    have : rest.foldr max b < c := ih (fun y hy => hl y (by simp [hy])) hb
    simp only [List.foldr_cons]
    have := hl x (by simp)
    omega

theorem foldr_min_le {b : Nat} : ∀ {l : List Nat}, l.foldr min b ≤ b := by
  intro l
  induction l with
  | nil => exact le_rfl
  | cons x rest ih => simp only [List.foldr_cons]; omega

theorem foldr_min_le_of_mem {b x : Nat} :
    ∀ {l : List Nat}, x ∈ l → l.foldr min b ≤ x := by
  intro l
  induction l with
  | nil => intro h; cases h
  | cons y rest ih =>
    intro h
    rcases List.mem_cons.mp h with rfl | h'
    · simp only [List.foldr_cons]; omega
    · have := ih h'
      simp only [List.foldr_cons]; omega

theorem le_foldr_max {b : Nat} : ∀ {l : List Nat}, b ≤ l.foldr max b := by
  intro l
  induction l with
  | nil => exact le_rfl
  | cons x rest ih => simp only [List.foldr_cons]; omega

theorem le_foldr_max_of_mem {b x : Nat} :
    ∀ {l : List Nat}, x ∈ l → x ≤ l.foldr max b := by
  intro l
  induction l with
  | nil => intro h; cases h
  | cons y rest ih =>
    intro h
    rcases List.mem_cons.mp h with rfl | h'
    · simp only [List.foldr_cons]; omega
    · have := ih h'
      simp only [List.foldr_cons]; omega

end Orbis

namespace Orbis

/-- Under the overlay invariant, the descending `takeWhile` scan of
`write_at` collects exactly the overlaps-or-touches set. -/
theorem cowToMerge_eq {ov : List Segment} (hp : ov.Pairwise SegGap)
    (W E : Nat) :
    cowToMerge ov W E =
      (ov.filter fun s =>
        decide (W ≤ s.1 + s.2.length) && decide (s.1 ≤ E)).reverse := by
  unfold cowToMerge segsUpTo
  have hrev : ((ov.filter fun s => decide (s.1 ≤ E)).reverse).Pairwise
      (fun a b => SegGap b a) := by
    rw [List.pairwise_reverse]
    exact hp.filter _
  rw [takeWhile_eq_filter_of_pairwise hrev ?mono]
  case mono =>
    intro a b hab hpa
    unfold SegGap at hab
    simp only [decide_eq_false_iff_not, not_le] at hpa ⊢
    omega
  rw [← List.filter_reverse, ← List.filter_reverse, List.filter_filter]

theorem mem_cowToMerge {ov : List Segment} (hp : ov.Pairwise SegGap)
    {W E : Nat} {s : Segment} :
    s ∈ cowToMerge ov W E ↔
      s ∈ ov ∧ W ≤ s.1 + s.2.length ∧ s.1 ≤ E := by
  rw [cowToMerge_eq hp, List.mem_reverse, List.mem_filter]
  simp

theorem cowToMerge_pairwise_disj {ov : List Segment}
    (hp : ov.Pairwise SegGap) (W E : Nat) :
    (cowToMerge ov W E).Pairwise SegDisj := by
  rw [cowToMerge_eq hp]
  rw [List.pairwise_reverse]
  exact (hp.filter _).imp fun h => Or.inr (Nat.le_of_lt h)

/-- Segment start offsets are unique under the invariant. -/
theorem starts_inj {ov : List Segment} (hp : ov.Pairwise SegGap) :
    ∀ {s t : Segment}, s ∈ ov → t ∈ ov → s.1 = t.1 → s = t := by
  intro s t hs ht heq
  by_contra hne
  rcases pairwise_mem_rel hp hs ht hne with h | h <;>
    (unfold SegGap at h; omega)

theorem mem_keys_cowToMerge {ov : List Segment} (hp : ov.Pairwise SegGap)
    {W E : Nat} {s : Segment} (hs : s ∈ ov) :
    s.1 ∈ (cowToMerge ov W E).map Prod.fst ↔
      W ≤ s.1 + s.2.length ∧ s.1 ≤ E := by
  constructor
  · intro h
    obtain ⟨t, ht, hkey⟩ := List.mem_map.mp h
    obtain ⟨ht', htc⟩ := (mem_cowToMerge hp).mp ht
    obtain rfl : s = t := starts_inj hp hs ht' hkey.symm
    exact htc
  · intro h
    exact List.mem_map.mpr ⟨s, (mem_cowToMerge hp).mpr ⟨hs, h.1, h.2⟩, rfl⟩

end Orbis

namespace Orbis

/-- `write_at`, no-overlap case: inserting the write as a fresh segment
preserves the invariant and updates the composite view pointwise. -/
theorem cowInsert_spec (base : List Byte) {ov : List Segment}
    (hinv : SegInv ov) {W : Nat} {data : List Byte} (hdata : data ≠ [])
    (hempty : ∀ s ∈ ov, ¬ (W ≤ s.1 + s.2.length ∧ s.1 ≤ W + data.length)) :
    SegInv (segInsert (W, data) ov) ∧
    ∀ p, ovView base (segInsert (W, data) ov) p =
      if W ≤ p ∧ p < W + data.length then data.getD (p - W) 0
      else ovView base ov p := by
  obtain ⟨hpw, hne⟩ := hinv
  have hdlen : 0 < data.length := List.length_pos.mpr hdata
  have hcompat : ∀ t ∈ ov, SegGap t (W, data) ∨ SegGap (W, data) t := by
    intro t ht
    have hnt := hempty t ht
    by_cases h1 : W ≤ t.1 + t.2.length
    · right
      have h2 : ¬ t.1 ≤ W + data.length := fun hh => hnt ⟨h1, hh⟩
      show W + data.length < t.1
      omega
    · left
      show t.1 + t.2.length < W
      omega
  have hinv2 : SegInv (segInsert (W, data) ov) := by
    constructor
    · exact segInsert_pairwise hpw hcompat
    · intro s hs
      rcases mem_segInsert_sub hs with rfl | hs'
      · exact hdata
      · exact hne s hs'
  refine ⟨hinv2, ?_⟩
  intro p
  have hdisj2 : (segInsert (W, data) ov).Pairwise SegDisj :=
    hinv2.1.imp SegGap.disj
  by_cases hc : W ≤ p ∧ p < W + data.length
  · rw [if_pos hc]
    unfold ovView
    rw [ovByte_eq_some hdisj2 self_mem_segInsert
      (show covers (W, data) p by unfold covers; exact hc)]
  · rw [if_neg hc]
    unfold ovView
    have heq : ovByte (segInsert (W, data) ov) p = ovByte ov p := by
      cases ho : ovByte ov p with
      | some b =>
        obtain ⟨t, ht, htc, rfl⟩ := ovByte_some_inv ho
        refine ovByte_eq_some hdisj2 (mem_segInsert_of_mem ?_ ht) htc
        show t.1 ≠ W
        intro htW
        unfold covers at htc
        exact hempty t ht ⟨by omega, by omega⟩
      | none =>
        apply ovByte_eq_none
        intro t ht htc
        rcases mem_segInsert_sub ht with rfl | ht'
        · exact hc (by unfold covers at htc; exact htc)
        · exact (ovByte_none_inv ho t ht') htc
    rw [heq]

end Orbis

namespace Orbis

/-- `write_at`, merge case: removing the overlaps-or-touches set and
inserting the merged segment preserves the invariant and updates the
composite view pointwise. -/
theorem cowMerge_spec (base : List Byte) {ov : List Segment}
    (hinv : SegInv ov) {W : Nat} {data : List Byte} (hdata : data ≠ []) :
    SegInv (segInsert
      (cowMergedSeg base (cowToMerge ov W (W + data.length)) W
        (W + data.length) data)
      (ov.filter fun s =>
        ¬ s.1 ∈ (cowToMerge ov W (W + data.length)).map Prod.fst)) ∧
    ∀ p, ovView base (segInsert
        (cowMergedSeg base (cowToMerge ov W (W + data.length)) W
          (W + data.length) data)
        (ov.filter fun s =>
          ¬ s.1 ∈ (cowToMerge ov W (W + data.length)).map Prod.fst)) p =
      if W ≤ p ∧ p < W + data.length then data.getD (p - W) 0
      else ovView base ov p := by
  obtain ⟨hpw, hne⟩ := hinv
  have hdlen : 0 < data.length := List.length_pos.mpr hdata
  set E := W + data.length with hE
  set TM := cowToMerge ov W E with hTM
  have hTMdisj : TM.Pairwise SegDisj := cowToMerge_pairwise_disj hpw W E
  have hmemTM : ∀ {s : Segment}, s ∈ TM ↔
        s ∈ ov ∧ W ≤ s.1 + s.2.length ∧ s.1 ≤ E :=
    fun {s} => mem_cowToMerge hpw
  set S := (TM.map Prod.fst).foldr min W with hS
  set Emax := (TM.map fun s => s.1 + s.2.length).foldr max E with hEmax
  have hSle : S ≤ W := foldr_min_le
  have hEle : E ≤ Emax := le_foldr_max
  have hSmem : ∀ t ∈ TM, S ≤ t.1 := fun t ht =>
    foldr_min_le_of_mem (List.mem_map.mpr ⟨t, ht, rfl⟩)
  have hEmem : ∀ t ∈ TM, t.1 + t.2.length ≤ Emax := fun t ht =>
    le_foldr_max_of_mem (List.mem_map.mpr ⟨t, ht, rfl⟩)
  have hrange : ∀ t ∈ TM, S ≤ t.1 ∧
      t.1 + t.2.length ≤ S + (cowMergedInit base S (Emax - S)).length := by
    intro t ht
    rw [cowMergedInit_length]
    exact ⟨hSmem t ht, by have := hEmem t ht; omega⟩
  set FB := TM.foldl (fun buf s => patchList buf (s.1 - S) s.2)
    (cowMergedInit base S (Emax - S)) with hFB
  have hFB_len : FB.length = Emax - S := by
    rw [hFB, foldl_patch_length S TM _ hrange, cowMergedInit_length]
  set MB := patchList FB (W - S) data with hMBdef
  have hMB_inrange : (W - S) + data.length ≤ FB.length := by
    rw [hFB_len]; omega
  have hMB_len : MB.length = Emax - S := by
    rw [hMBdef, patchList_length hMB_inrange, hFB_len]
  have hM : cowMergedSeg base TM W E data = (S, MB) := rfl
  have hMB_getD : ∀ i, i < Emax - S → MB.getD i 0 =
      if W ≤ S + i ∧ S + i < E then data.getD (S + i - W) 0
      else match ovByte TM (S + i) with
        | some b => b
        | none => baseByte base (S + i) := by
    intro i hi
    rw [hMBdef, patchList_getD hMB_inrange]
    by_cases hw : W ≤ S + i ∧ S + i < E
    · rw [if_pos (by omega), if_pos hw]
      congr 1
      omega
    · rw [if_neg (by omega), if_neg hw, hFB,
        foldl_patch_getD S TM _ hTMdisj hrange i]
      cases hTMp : ovByte TM (S + i) with
      | some b => rfl
      | none =>
        simp only []
        exact cowMergedInit_getD base S (Emax - S) i hi
  set KP := ov.filter
    (fun s => ¬ s.1 ∈ TM.map Prod.fst) with hKP
  have hmemKP : ∀ {s : Segment}, s ∈ KP ↔
      s ∈ ov ∧ ¬ (W ≤ s.1 + s.2.length ∧ s.1 ≤ E) := by
    intro s
    rw [hKP, List.mem_filter]
    constructor
    · rintro ⟨hs, hdec⟩
      refine ⟨hs, fun htouch => ?_⟩
      have := (mem_keys_cowToMerge hpw hs).mpr htouch
      simp only [decide_eq_true_eq] at hdec
      exact hdec this
    · rintro ⟨hs, hnt⟩
      refine ⟨hs, ?_⟩
      simp only [decide_eq_true_eq]
      intro hk
      exact hnt ((mem_keys_cowToMerge hpw hs).mp hk)
  have hKPpw : KP.Pairwise SegGap := hpw.filter _
  have hgapK : ∀ s ∈ KP, SegGap s (S, MB) ∨ SegGap (S, MB) s := by
    intro s hs
    obtain ⟨hsov, hsnt⟩ := hmemKP.mp hs
    by_cases h1 : W ≤ s.1 + s.2.length
    · have h2 : ¬ s.1 ≤ E := fun hh => hsnt ⟨h1, hh⟩
      have hT : ∀ t ∈ TM, t.1 + t.2.length < s.1 := by
        intro t ht
        obtain ⟨htov, htW, htE⟩ := hmemTM.mp ht
        have hne2 : s ≠ t := by
          intro h
          rw [h] at h2
          exact h2 htE
        rcases pairwise_mem_rel hpw hsov htov hne2 with h | h
        · exfalso; unfold SegGap at h; omega
        · unfold SegGap at h; exact h
      right
      show S + MB.length < s.1
      rw [hMB_len]
      have hmax : Emax < s.1 := by
        rw [hEmax]
        refine foldr_max_lt ?_ (by omega)
        intro x hx
        obtain ⟨t, ht, rfl⟩ := List.mem_map.mp hx
        exact hT t ht
      omega
    · have hW1 : s.1 + s.2.length < W := by omega
      have hT : ∀ t ∈ TM, s.1 + s.2.length < t.1 := by
        intro t ht
        obtain ⟨htov, htW, htE⟩ := hmemTM.mp ht
        have hne2 : s ≠ t := by
          intro h
          rw [h] at hW1
          omega
        rcases pairwise_mem_rel hpw hsov htov hne2 with h | h
        · unfold SegGap at h; exact h
        · exfalso; unfold SegGap at h; omega
      left
      show s.1 + s.2.length < S
      rw [hS]
      refine lt_foldr_min ?_ hW1
      intro x hx
      obtain ⟨t, ht, rfl⟩ := List.mem_map.mp hx
      exact hT t ht
  have hinv2 : SegInv (segInsert (S, MB) KP) := by
    constructor
    · exact segInsert_pairwise hKPpw hgapK
    · intro u hu
      rcases mem_segInsert_sub hu with rfl | hu'
      · show MB ≠ []
        intro hnil
        have : MB.length = 0 := by rw [hnil]; rfl
        omega
      · exact hne u (hmemKP.mp hu').1
  rw [hM]
  refine ⟨hinv2, ?_⟩
  intro p
  have hdisj2 : (segInsert (S, MB) KP).Pairwise SegDisj :=
    hinv2.1.imp SegGap.disj
  have hMcov : covers (S, MB) p ↔ S ≤ p ∧ p < Emax := by
    unfold covers
    rw [show (S, MB).2.length = Emax - S from hMB_len]
    constructor <;> (intro h; exact ⟨h.1, by omega⟩)
  by_cases hpM : S ≤ p ∧ p < Emax
  · have h1 : ovByte (segInsert (S, MB) KP) p = some (MB.getD (p - S) 0) :=
      ovByte_eq_some hdisj2 self_mem_segInsert (hMcov.mpr hpM)
    unfold ovView
    rw [h1]
    have hcontent := hMB_getD (p - S) (by omega)
    rw [show S + (p - S) = p from by omega] at hcontent
    rw [hcontent]
    by_cases hW : W ≤ p ∧ p < E
    · rw [if_pos hW, if_pos hW]
    · rw [if_neg hW, if_neg hW]
      cases hTMp : ovByte TM p with
      | some b =>
        obtain ⟨t, ht, htc, rfl⟩ := ovByte_some_inv hTMp
        rw [ovByte_eq_some (hpw.imp SegGap.disj) (hmemTM.mp ht).1 htc]
      | none =>
        rw [ovByte_eq_none ?nocov]
        case nocov =>
          intro t ht htc
          by_cases htn : W ≤ t.1 + t.2.length ∧ t.1 ≤ E
          · exact (ovByte_none_inv hTMp t (hmemTM.mpr ⟨ht, htn⟩)) htc
          · have htk : t ∈ KP := hmemKP.mpr ⟨ht, htn⟩
            unfold covers at htc
            rcases hgapK t htk with h | h
            · unfold SegGap at h
              omega
            · have h2 : S + MB.length < t.1 := h
              rw [hMB_len] at h2
              omega
  · have hWp : ¬ (W ≤ p ∧ p < E) := by omega
    rw [if_neg hWp]
    unfold ovView
    have heq : ovByte (segInsert (S, MB) KP) p = ovByte ov p := by
      cases ho : ovByte ov p with
      | some b =>
        obtain ⟨t, ht, htc, rfl⟩ := ovByte_some_inv ho
        have htn : ¬ (W ≤ t.1 + t.2.length ∧ t.1 ≤ E) := by
          intro htch
          have hmem : t ∈ TM := hmemTM.mpr ⟨ht, htch⟩
          have hb1 := hSmem t hmem
          have hb2 := hEmem t hmem
          unfold covers at htc
          omega
        have htk : t ∈ KP := hmemKP.mpr ⟨ht, htn⟩
        refine ovByte_eq_some hdisj2 (mem_segInsert_of_mem ?_ htk) htc
        show t.1 ≠ S
        intro hts
        rcases hgapK t htk with h | h
        · unfold SegGap at h
          omega
        · have h2 : S + MB.length < t.1 := h
          omega
      | none =>
        apply ovByte_eq_none
        intro t ht htc
        rcases mem_segInsert_sub ht with rfl | ht'
        · exact hpM (hMcov.mp htc)
        · exact (ovByte_none_inv ho t (hmemKP.mp ht').1) htc
    rw [heq]

end Orbis

namespace Orbis

/-- `CowImage::write_at` on a valid state: the write succeeds, preserves
the segment-map invariant, extends the logical length monotonically, and
updates the composite view exactly on the written range. -/
theorem cowWriteAt_spec (base : List Byte) (st : CowState) (offset : Nat)
    (data : List Byte) (hinv : SegInv st.overlay) (hdata : data ≠ [])
    (hov : offset + data.length < 2 ^ 64) :
    ∃ ov2, cowWriteAt base st offset data =
        .ok { overlay := ov2
              logicalLen := max st.logicalLen (offset + data.length) } ∧
      SegInv ov2 ∧
      ∀ p, ovView base ov2 p =
        if offset ≤ p ∧ p < offset + data.length then
          data.getD (p - offset) 0
        else ovView base st.overlay p := by
  have hne : data.isEmpty = false := by
    cases data with
    | nil => exact absurd rfl hdata
    | cons a l => rfl
  unfold cowWriteAt
  rw [if_neg (by simp [hne]), if_neg (by omega)]
  by_cases hem : (cowToMerge st.overlay offset (offset + data.length)).isEmpty
  · rw [if_pos hem]
    have hempty : ∀ s ∈ st.overlay,
        ¬ (offset ≤ s.1 + s.2.length ∧ s.1 ≤ offset + data.length) := by
      intro s hs htouch
      have : s ∈ cowToMerge st.overlay offset (offset + data.length) :=
        (mem_cowToMerge hinv.1).mpr ⟨hs, htouch.1, htouch.2⟩
      rw [List.isEmpty_iff] at hem
      rw [hem] at this
      cases this
    obtain ⟨hi2, hview⟩ := cowInsert_spec base hinv hdata hempty
    exact ⟨_, rfl, hi2, hview⟩
  · rw [if_neg hem]
    obtain ⟨hi2, hview⟩ := cowMerge_spec base hinv hdata (W := offset)
    exact ⟨_, rfl, hi2, hview⟩

end Orbis

namespace Orbis

theorem cowReadInit_length (base : List Byte) (offset readLen : Nat) :
    (cowReadInit base offset readLen).length = readLen := by
  unfold cowReadInit
  split_ifs with h
  · simp only [List.length_append, List.length_take, List.length_drop,
      List.length_replicate]
    omega
  · simp

theorem cowReadInit_getD (base : List Byte) (offset readLen i : Nat)
    (hi : i < readLen) :
    (cowReadInit base offset readLen).getD i 0 =
      baseByte base (offset + i) := by
  unfold cowReadInit baseByte
  simp only [List.getD_eq_getElem?_getD]
  split_ifs with h
  · rw [List.getElem?_append]
    simp only [List.length_take, List.length_drop]
    by_cases hilt : i < min (base.length - offset) readLen
    · rw [if_pos (by omega), List.getElem?_take, if_pos (by omega),
        List.getElem?_drop]
    · rw [if_neg (by omega), List.getElem?_replicate, if_pos (by omega),
        List.getElem?_eq_none (l := base) (by omega)]
      rfl
  · rw [List.getElem?_replicate, if_pos hi,
      List.getElem?_eq_none (l := base) (by omega)]
    rfl

theorem segClip_length {readStart readEnd : Nat} {s : Segment}
    (h1 : readStart < s.1 + s.2.length) :
    (segClip readStart readEnd s).2.length =
      min (s.1 + s.2.length) readEnd - max s.1 readStart := by
  unfold segClip
  simp only [List.length_take, List.length_drop]
  omega

theorem cowApplySeg_eq_patch (readStart readEnd : Nat) (buf : List Byte)
    (s : Segment) :
    cowApplySeg readStart readEnd buf s =
      patchList buf ((segClip readStart readEnd s).1 - readStart)
        (segClip readStart readEnd s).2 := rfl

/-- Under the invariant, the descending scan of `read_at` visits exactly
the segments intersecting the read window. -/
theorem cowToApply_eq {ov : List Segment} (hp : ov.Pairwise SegGap)
    (readStart readEnd : Nat) :
    cowToApply ov readStart readEnd =
      (ov.filter fun s =>
        decide (readStart < s.1 + s.2.length) &&
          decide (s.1 < readEnd)).reverse := by
  unfold cowToApply segsBelow
  have hrev : ((ov.filter fun s => decide (s.1 < readEnd)).reverse).Pairwise
      (fun a b => SegGap b a) := by
    rw [List.pairwise_reverse]
    exact hp.filter _
  rw [takeWhile_eq_filter_of_pairwise hrev ?mono]
  case mono =>
    intro a b hab hpa
    unfold SegGap at hab
    simp only [decide_eq_false_iff_not, not_lt] at hpa ⊢
    omega
  rw [← List.filter_reverse, ← List.filter_reverse, List.filter_filter]

theorem mem_cowToApply {ov : List Segment} (hp : ov.Pairwise SegGap)
    {readStart readEnd : Nat} {s : Segment} :
    s ∈ cowToApply ov readStart readEnd ↔
      s ∈ ov ∧ readStart < s.1 + s.2.length ∧ s.1 < readEnd := by
  rw [cowToApply_eq hp, List.mem_reverse, List.mem_filter]
  simp

theorem cowToApply_pairwise_disj {ov : List Segment}
    (hp : ov.Pairwise SegGap) (readStart readEnd : Nat) :
    (cowToApply ov readStart readEnd).Pairwise SegDisj := by
  rw [cowToApply_eq hp]
  rw [List.pairwise_reverse]
  exact (hp.filter _).imp fun h => Or.inr (Nat.le_of_lt h)

/-- `CowImage::read_at` on a valid state returns exactly the composite
view of the clamped byte range. -/
theorem cowReadAt_spec (base : List Byte) (st : CowState)
    (hinv : SegInv st.overlay) (offset bufLen : Nat) :
    cowReadAt base st offset bufLen =
      if bufLen = 0 ∨ st.logicalLen ≤ offset then []
      else (List.range (min bufLen (st.logicalLen - offset))).map
        fun i => viewByte base st (offset + i) := by
  unfold cowReadAt
  by_cases h : bufLen = 0 ∨ st.logicalLen ≤ offset
  · rw [if_pos h, if_pos h]
  · rw [if_neg h, if_neg h]
    set rl := min bufLen (st.logicalLen - offset) with hrl
    set re := offset + rl with hre
    set TA := cowToApply st.overlay offset re with hTA
    have hmemTA : ∀ {s : Segment}, s ∈ TA ↔
        s ∈ st.overlay ∧ offset < s.1 + s.2.length ∧ s.1 < re :=
      fun {s} => mem_cowToApply hinv.1
    -- rewrite the fold as a patch fold over the clipped segments
    have hfold : TA.foldl (cowApplySeg offset re)
        (cowReadInit base offset rl) =
        (TA.map (segClip offset re)).foldl
          (fun buf t => patchList buf (t.1 - offset) t.2)
          (cowReadInit base offset rl) := by
      rw [List.foldl_map]
      rfl
    have hdisj : (TA.map (segClip offset re)).Pairwise SegDisj := by
      rw [List.pairwise_map]
      have hTAdisj := cowToApply_pairwise_disj hinv.1 offset re
      rw [hTA]
      refine hTAdisj.imp_of_mem ?_
      intro a b ha hb hd
      have ha' := (hmemTA.mp ha).2
      have hb' := (hmemTA.mp hb).2
      unfold SegDisj at hd ⊢
      rw [segClip_length ha'.1, segClip_length hb'.1]
      unfold segClip
      simp only []
      omega
    have hranges : ∀ t ∈ TA.map (segClip offset re),
        offset ≤ t.1 ∧ t.1 + t.2.length ≤
          offset + (cowReadInit base offset rl).length := by
      intro t ht
      obtain ⟨s, hs, rfl⟩ := List.mem_map.mp ht
      have hs' := (hmemTA.mp hs).2
      rw [cowReadInit_length, segClip_length hs'.1]
      unfold segClip
      simp only []
      omega
    rw [hfold]
    -- both sides have length `rl`; compare pointwise
    have hlen1 : ((TA.map (segClip offset re)).foldl
        (fun buf t => patchList buf (t.1 - offset) t.2)
        (cowReadInit base offset rl)).length = rl := by
      rw [foldl_patch_length offset _ _ hranges, cowReadInit_length]
    apply List.ext_getElem
    · rw [hlen1]
      simp
    · intro i hi1 hi2
      have hirl : i < rl := by rw [hlen1] at hi1; exact hi1
      have hgd := foldl_patch_getD offset (TA.map (segClip offset re))
        (cowReadInit base offset rl) hdisj hranges i
      -- convert getD to getElem
      have hconv : ((TA.map (segClip offset re)).foldl
          (fun buf t => patchList buf (t.1 - offset) t.2)
          (cowReadInit base offset rl))[i] =
          ((TA.map (segClip offset re)).foldl
          (fun buf t => patchList buf (t.1 - offset) t.2)
          (cowReadInit base offset rl)).getD i 0 := by
        rw [List.getD_eq_getElem?_getD, List.getElem?_eq_getElem hi1]
        rfl
      rw [hconv, hgd]
      rw [List.getElem_map, List.getElem_range]
      unfold viewByte ovView
      -- relate overlay bytes of the clipped list and of the overlay
      cases ho : ovByte st.overlay (offset + i) with
      | some b =>
        obtain ⟨t, ht, htc, rfl⟩ := ovByte_some_inv ho
        have htTA : t ∈ TA := by
          apply hmemTA.mpr
          refine ⟨ht, ?_, ?_⟩ <;> (unfold covers at htc; omega)
        have hclipcov : covers (segClip offset re t) (offset + i) := by
          unfold covers at htc ⊢
          unfold segClip
          simp only [List.length_take, List.length_drop]
          omega
        rw [ovByte_eq_some hdisj (List.mem_map.mpr ⟨t, htTA, rfl⟩) hclipcov]
        -- the clipped byte equals the original segment byte
        unfold covers at htc
        unfold segClip
        simp only [List.getD_eq_getElem?_getD, List.getElem?_take,
          List.getElem?_drop]
        rw [if_pos (by omega)]
        congr 2
        omega
      | none =>
        rw [ovByte_eq_none ?noc]
        case noc =>
          intro u hu huc
          obtain ⟨t, ht, rfl⟩ := List.mem_map.mp hu
          have ht' := (hmemTA.mp ht).1
          apply (ovByte_none_inv ho) t ht'
          unfold covers at huc ⊢
          unfold segClip at huc
          simp only [List.length_take, List.length_drop] at huc
          omega
        simp only []
        exact cowReadInit_getD base offset rl i hirl

end Orbis

namespace Orbis

/-- Pointwise-equal seeds give pointwise-equal layered views. -/
theorem foldl_overwrite_congr :
    ∀ (ws : List Segment) {f g : Nat → Byte}, (∀ p, f p = g p) →
      ∀ p, (ws.foldl overwrite f) p = (ws.foldl overwrite g) p := by
  intro ws
  induction ws with
  | nil => intro f g h p; exact h p
  | cons w rest ih =>
    intro f g h p
    simp only [List.foldl_cons]
    refine ih ?_ p
    intro q
    unfold overwrite
    split_ifs with hc
    · rfl
    · exact h q

theorem viewByte_cowNew (base : List Byte) (p : Nat) :
    viewByte base (cowNew base) p = baseByte base p := rfl

/-- Running a write sequence from a valid state: the invariant is
preserved, the logical length folds over the nonempty write ends, and the
composite view is the in-order layering of the writes over the old view. -/
theorem cowWrites_view (base : List Byte) :
    ∀ (ws : List Segment) (st st2 : CowState),
      cowWrites base st ws = .ok st2 → SegInv st.overlay →
      SegInv st2.overlay ∧
      st2.logicalLen = ws.foldl
        (fun n w => if w.2.isEmpty then n else max n (w.1 + w.2.length))
        st.logicalLen ∧
      ∀ p, viewByte base st2 p =
        (ws.foldl overwrite fun q => viewByte base st q) p := by
  intro ws
  induction ws with
  | nil =>
    intro st st2 h hinv
    obtain rfl : st = st2 := by
      simpa [cowWrites] using h
    exact ⟨hinv, rfl, fun p => rfl⟩
  | cons w rest ih =>
    intro st st2 h hinv
    unfold cowWrites at h
    by_cases hemp : w.2.isEmpty
    · have hw : cowWriteAt base st w.1 w.2 = .ok st := by
        unfold cowWriteAt
        rw [if_pos hemp]
      rw [hw] at h
      obtain ⟨hi2, hlen, hview⟩ := ih st st2 h hinv
      refine ⟨hi2, ?_, ?_⟩
      · rw [hlen]
        simp only [List.foldl_cons]
        rw [if_pos hemp]
      · intro p
        rw [hview p]
        simp only [List.foldl_cons]
        refine foldl_overwrite_congr _ (fun q => ?_) p
        unfold overwrite
        have : w.2.length = 0 := by
          rw [List.isEmpty_iff] at hemp
          simp [hemp]
        rw [if_neg (by omega)]
    · have hdata : w.2 ≠ [] := by
        rw [List.isEmpty_iff] at hemp
        exact hemp
      by_cases hov : w.1 + w.2.length < 2 ^ 64
      · obtain ⟨ov2, hw, hi2, hview1⟩ :=
          cowWriteAt_spec base st w.1 w.2 hinv hdata hov
        rw [hw] at h
        obtain ⟨hi3, hlen, hview2⟩ := ih _ st2 h hi2
        refine ⟨hi3, ?_, ?_⟩
        · rw [hlen]
          simp only [List.foldl_cons]
          rw [if_neg (by simp [hemp])]
        · intro p
          rw [hview2 p]
          simp only [List.foldl_cons]
          refine foldl_overwrite_congr _ (fun q => ?_) p
          unfold overwrite viewByte
          exact hview1 q
      · have hw : cowWriteAt base st w.1 w.2 = .error "write range overflows u64" := by
          unfold cowWriteAt
          rw [if_neg (by simp [hemp]), if_pos (by omega)]
        rw [hw] at h
        cases h

/-- C2: For any base image `B` and any sequence of successful
`CowImage::write_at` calls, a subsequent `CowImage::read_at(offset, buf)`
returns exactly the bytes obtained by layering the written byte ranges, in
write order, over `B` (with bytes beyond `B`'s length up to the logical
length reading as zero where not written), clamped to the logical length:
read-after-write consistency for every offset and length. -/
theorem c2_cow_read_after_write (base : List Byte) (ws : List Segment)
    (st : CowState) (h : cowWrites base (cowNew base) ws = .ok st)
    (offset bufLen : Nat) :
    cowReadAt base st offset bufLen = expectedRead base ws offset bufLen := by
  obtain ⟨hinv, hlen, hview⟩ := cowWrites_view base ws (cowNew base) st h
    ⟨List.Pairwise.nil, by intro s hs; cases hs⟩
  rw [cowReadAt_spec base st hinv]
  unfold expectedRead
  have hlen2 : st.logicalLen = expectedLen base ws := hlen
  rw [hlen2]
  by_cases hc : bufLen = 0 ∨ expectedLen base ws ≤ offset
  · rw [if_pos hc, if_pos hc]
  · rw [if_neg hc, if_neg hc]
    apply List.map_congr_left
    intro i _
    rw [hview (offset + i)]
    unfold layered
    exact foldl_overwrite_congr _ (fun q => viewByte_cowNew base q) (offset + i)

theorem c2_cow_read_after_write_witness :
    cowReadAt c2Base c2State 8 25 = expectedRead c2Base c2Writes 8 25 :=
  c2_cow_read_after_write c2Base c2Writes c2State (by rfl) 8 25

/-- C3: After any sequence of `CowImage::write_at` calls starting from an
empty overlay, the overlay segment map contains no two segments that
overlap or are adjacent: between any two distinct segments there is a gap
of at least one byte. -/
theorem c3_segments_canonical (base : List Byte) (ws : List Segment)
    (st : CowState) (h : cowWrites base (cowNew base) ws = .ok st) :
    st.overlay.Pairwise fun a b =>
      a.1 + a.2.length < b.1 ∨ b.1 + b.2.length < a.1 := by
  obtain ⟨hinv, -, -⟩ := cowWrites_view base ws (cowNew base) st h
    ⟨List.Pairwise.nil, by intro s hs; cases hs⟩
  exact hinv.1.imp fun hg => Or.inl hg

theorem c3_segments_canonical_witness :
    (c3State.overlay.Pairwise fun a b =>
      a.1 + a.2.length < b.1 ∨ b.1 + b.2.length < a.1) :=
  c3_segments_canonical c2Base c3Writes c3State (by rfl)

end Orbis

/-! ### Theorems about `PfscImage` -/

namespace Orbis

/-- C4 (amended): `PfscImage::open` reads a block offset table of exactly
`N = ⌊original_data_length / original_block_size⌋ + 1` little-endian u64
entries — not `N + 1` — so the compressed size `entry[i+1] - entry[i]` is
defined exactly for block indices `i` with `i + 1 < N`; when the read
block size equals `original_block_size`, this covers every block index
`PfscImage::read_at` can reach over `[0, original_data_length)` provided
`original_data_length` is a multiple of the block size (the counterexample
shows coverage fails otherwise). -/
theorem c4_pfsc_table_len (source : ImageFun) (st : PfscState)
    (h : pfscOpen source = .ok st) :
    st.compressedBlocks.length =
      st.originalSize / st.originalBlockSize + 1 ∧
    (st.blockSize = st.originalBlockSize → 0 < st.blockSize →
      st.originalSize % st.blockSize = 0 →
      ∀ offs, offs < st.originalSize →
        offs / st.blockSize + 1 < st.compressedBlocks.length) := by
  unfold pfscOpen at h
  cases h1 : readExactAt source 0 48 with
  | none => rw [h1] at h; cases h
  | some hb =>
    rw [h1] at h
    simp only [] at h
    by_cases hm : bytesAt hb 0 4 ≠ pfscMagic
    · rw [if_pos hm] at h; cases h
    · rw [if_neg hm] at h
      cases h2 : readExactAt source (leU64 hb 0x18)
          ((leU64 hb 0x28 / leU64 hb 0x10 + 1) * 8) with
      | none => rw [h2] at h; cases h
      | some tb =>
        rw [h2] at h
        cases h
        constructor
        · simp [leU64List]
        · intro hbe hpos hmod offs hofs
          simp only [] at hbe hpos hmod hofs ⊢
          simp only [leU64List, List.length_map, List.length_range]
          rw [hbe] at hpos hmod ⊢
          have hdvd : leU64 hb 0x10 ∣ leU64 hb 0x28 :=
            Nat.dvd_of_mod_eq_zero hmod
          have := Nat.div_lt_div_of_lt_of_dvd hdvd hofs
          omega

/-- C4 counterexample: a PFSC image whose `original_data_length` is 1 with
block size 2.  `open` succeeds with a table of `⌊1/2⌋ + 1 = 1` entries —
not the `N + 1 = 2` entries claimed — and reading the very first byte
(offset `0 < original_data_length`) fails because block 0 has no defined
compressed size. -/
theorem c4_pfsc_table_len_counterexample :
    pfscOpen c4Src = .ok c4St ∧
    0 < c4St.originalSize ∧
    c4St.compressedBlocks.length ≠
      (c4St.originalSize / c4St.originalBlockSize + 1) + 1 ∧
    pfscReadAt (fun _ => none) c4St 0 1 = .error "invalid input" :=
  ⟨rfl, by decide, by decide, rfl⟩

theorem c4_pfsc_table_len_witness :
    c4GoodSt.compressedBlocks.length =
      c4GoodSt.originalSize / c4GoodSt.originalBlockSize + 1 ∧
    1 / c4GoodSt.blockSize + 1 < c4GoodSt.compressedBlocks.length := by
  have h := c4_pfsc_table_len c4GoodSrc c4GoodSt rfl
  exact ⟨h.1, h.2 rfl (by decide) (by decide) 1 (by decide)⟩

/-- C5: For each PFSC block `i` with compressed size
`s = entry[i+1] - entry[i]`, decompression compares `s` to
`original_block_size`: if smaller, the block is deflate-decompressed and it
is an error unless the deflate stream reaches its end having produced
exactly the output block size; if equal, the stored bytes are copied
verbatim; if greater, the output block is filled entirely with zeros. -/
theorem c5_decompress_block_rules (inflate : List Byte → Option (List Byte))
    (st : PfscState) (num startOff endOff : Nat)
    (hs : st.compressedBlocks.get? num = some startOff)
    (he : st.compressedBlocks.get? (num + 1) = some endOff)
    (_hmono : startOff ≤ endOff) :
    (endOff - startOff < st.originalBlockSize →
      ∀ cb, readExactAt st.source startOff (endOff - startOff) = some cb →
        (∀ res, inflate cb = some res → res.length = st.blockSize →
          pfscDecompressBlock inflate st num = .ok res) ∧
        (∀ res, inflate cb = some res → res.length ≠ st.blockSize →
          ∃ e, pfscDecompressBlock inflate st num = .error e) ∧
        (inflate cb = none →
          ∃ e, pfscDecompressBlock inflate st num = .error e)) ∧
    (endOff - startOff = st.originalBlockSize →
      ∀ raw, readExactAt st.source startOff st.blockSize = some raw →
        pfscDecompressBlock inflate st num = .ok raw) ∧
    (st.originalBlockSize < endOff - startOff →
      pfscDecompressBlock inflate st num =
        .ok (List.replicate st.blockSize 0)) := by
  have hoff : st.compressedBlocks.getD num 0 = startOff := by
    rw [List.getD_eq_getElem?_getD, ← List.get?_eq_getElem?, hs]
    rfl
  refine ⟨?_, ?_, ?_⟩
  · intro hlt cb hcb
    refine ⟨?_, ?_, ?_⟩
    · intro res hres hlen
      simp only [pfscDecompressBlock, he, hoff]
      rw [if_pos hlt, hcb]
      simp only [hres]
      rw [if_pos hlen]
    · intro res hres hlen
      simp only [pfscDecompressBlock, he, hoff]
      rw [if_pos hlt, hcb]
      simp only [hres]
      rw [if_neg hlen]
      exact ⟨_, rfl⟩
    · intro hnone
      simp only [pfscDecompressBlock, he, hoff]
      rw [if_pos hlt, hcb]
      simp only [hnone]
      exact ⟨_, rfl⟩
  · intro heq raw hraw
    simp only [pfscDecompressBlock, he, hoff]
    rw [if_neg (by omega), if_pos heq, hraw]
  · intro hgt
    simp only [pfscDecompressBlock, he, hoff]
    rw [if_neg (by omega), if_neg (by omega)]

theorem c5_decompress_block_rules_witness :
    pfscDecompressBlock c5Inflate c5St 0 = .ok (List.replicate 4 9) ∧
    pfscDecompressBlock c5Inflate c5St 1 = .ok [3, 4, 5, 6] ∧
    pfscDecompressBlock c5Inflate c5St 2 = .ok (List.replicate 4 0) := by
  refine ⟨?_, ?_, ?_⟩
  · exact ((c5_decompress_block_rules c5Inflate c5St 0 0 2 (by decide)
      (by decide) (by decide)).1 (by decide) [1, 2] (by decide)).1
      (List.replicate 4 9) (by decide) (by decide)
  · exact (c5_decompress_block_rules c5Inflate c5St 1 2 6 (by decide)
      (by decide) (by decide)).2.1 (by decide) [3, 4, 5, 6] (by decide)
  · exact (c5_decompress_block_rules c5Inflate c5St 2 6 20 (by decide)
      (by decide) (by decide)).2.2 (by decide)

end Orbis

/-! ### Theorems about inode block maps, the loader, directories, and the
encrypted slice -/

namespace Orbis

/-- C6 (amended): for every inode with `block_count = N > 0` whose second
direct pointer is the `0xFFFFFFFF` contiguity marker, **provided
`direct[0] + N` does not overflow u32**, `load_block_map` returns exactly
`[direct[0], …, direct[0] + N - 1]` — for every underlying image, i.e.
without reading any indirect blocks.  (On overflow the wrapped range bound
makes the result empty instead; see the counterexample.) -/
theorem c6_contiguous_block_map (ino : Inode) (img : ImageFun)
    (blockSize : Nat) (hN : 0 < ino.blocks)
    (hmark : ino.directBlocks.getD 1 0 = 0xffffffff)
    (hnoov : ino.directBlocks.getD 0 0 + ino.blocks < 2 ^ 32) :
    loadBlockMap ino img blockSize =
      .ok (List.range' (ino.directBlocks.getD 0 0) ino.blocks) := by
  simp only [loadBlockMap]
  rw [if_neg (by omega), if_pos hmark]
  congr 1
  rw [Nat.mod_eq_of_lt hnoov]
  congr 1
  omega

theorem c6_contiguous_block_map_witness :
    loadBlockMap c6GoodInode (fun _ => none) 0x10000 =
      .ok [100, 101, 102, 103] :=
  c6_contiguous_block_map c6GoodInode (fun _ => none) 0x10000
    (by decide) (by decide) (by decide)

/-- C6 counterexample: `block_count = 1` with `direct[0] = u32::MAX` and
the contiguity marker.  The u32 upper bound `direct[0] + 1` wraps to 0, so
`load_block_map` returns the empty vector instead of the claimed
`[0xFFFFFFFF]`. -/
theorem c6_contiguous_block_map_counterexample :
    loadBlockMap c6Inode (fun _ => none) 0x10000 = .ok [] ∧
    0 < c6Inode.blocks ∧
    c6Inode.directBlocks.getD 1 0 = 0xffffffff ∧
    ([] : List Nat) ≠
      List.range' (c6Inode.directBlocks.getD 0 0) c6Inode.blocks :=
  ⟨rfl, by decide, by decide, by decide⟩

theorem inodeFromRaw32_direct_length {sm : Bool} {idx : Nat}
    {src : List Byte} {ino : Inode} {rest : List Byte}
    (h : inodeFromRaw32 sm idx src = .ok (ino, rest)) :
    ino.directBlocks.length = 12 := by
  cases sm with
  | false =>
    simp only [inodeFromRaw32, Bool.false_eq_true, if_false] at h
    split at h
    · cases h
    · split at h
      · cases h
      · cases h
        simp
  | true =>
    simp only [inodeFromRaw32, eq_self_iff_true, if_true] at h
    split at h
    · cases h
    · split at h
      · cases h
      · cases h
        simp

theorem parseInodesLoop_direct_length {sm : Bool} :
    ∀ {fuel : Nat} {src : List Byte} {inodes out : List Inode} {done : Bool},
      parseInodesLoop sm fuel src inodes = (out, done) →
      (∀ ino ∈ inodes, ino.directBlocks.length = 12) →
      ∀ ino ∈ out, ino.directBlocks.length = 12 := by
  intro fuel
  induction fuel with
  | zero =>
    intro src inodes out done h hin
    simp only [parseInodesLoop] at h
    cases h
    exact hin
  | succ f ih =>
    intro src inodes out done h hin
    simp only [parseInodesLoop] at h
    cases hp : inodeFromRaw32 sm inodes.length src with
    | error e => rw [hp] at h; cases h; exact hin
    | ok r =>
      rw [hp] at h
      refine ih h ?_
      intro ino hino
      rcases List.mem_append.mp hino with h' | h'
      · exact hin ino h'
      · obtain rfl : ino = r.1 := by simpa using h'
        exact inodeFromRaw32_direct_length
          (show inodeFromRaw32 sm inodes.length src = .ok (r.1, r.2) by
            rw [hp])

theorem readInodes_direct_length {img : ImageFun} {sm : Bool}
    {blockSize inodeCount : Nat} :
    ∀ {blocksLeft blockNum : Nat} {inodes out : List Inode},
      readInodes img sm blockSize inodeCount blocksLeft blockNum inodes =
        .ok out →
      (∀ ino ∈ inodes, ino.directBlocks.length = 12) →
      ∀ ino ∈ out, ino.directBlocks.length = 12 := by
  intro blocksLeft
  induction blocksLeft with
  | zero =>
    intro blockNum inodes out h hin
    simp only [readInodes] at h
    cases h
    exact hin
  | succ bl ih =>
    intro blockNum inodes out h hin
    cases hr : readExactAt img (blockSize + blockNum * blockSize)
        blockSize with
    | none =>
      simp only [readInodes, hr] at h
      exact Except.noConfusion h
    | some blockData =>
      simp only [readInodes, hr] at h
      cases hp : parseInodesLoop sm (inodeCount - inodes.length)
          blockData inodes with
      | mk inodes2 done =>
        cases done with
        | true =>
          simp only [hp] at h
          cases h
          exact parseInodesLoop_direct_length hp hin
        | false =>
          simp only [hp] at h
          exact ih h (parseInodesLoop_direct_length hp hin)

theorem loadIndirect2_length {sm : Bool} {idx : Nat} {img : ImageFun}
    {blockSize blockCount : Nat} :
    ∀ {es : List Nat} {cur bm : List Nat},
      cur.length < blockCount →
      loadIndirect2 sm idx img blockSize blockCount cur es = .ok bm →
      bm.length = blockCount := by
  intro es
  induction es with
  | nil =>
    intro cur bm _ h
    simp only [loadIndirect2] at h
    cases h
  | cons i rest ih =>
    intro cur bm hlt h
    cases hr : readExactAt img (i * blockSize) blockSize with
    | none =>
      simp only [loadIndirect2, hr] at h
      exact Except.noConfusion h
    | some block1 =>
      simp only [loadIndirect2, hr] at h
      by_cases hneed : blockCount - cur.length ≤
          (readIndirectEntries sm block1).length
      · rw [if_pos hneed] at h
        cases h
        simp only [List.length_append, List.length_take]
        omega
      · rw [if_neg hneed] at h
        refine ih ?_ h
        simp only [List.length_append]
        omega

theorem loadBlockMap_length {ino : Inode} {img : ImageFun}
    {blockSize : Nat} {bm : List Nat}
    (hd12 : ino.directBlocks.length = 12)
    (hnoov : ino.directBlocks.getD 1 0 = 0xffffffff →
      ino.directBlocks.getD 0 0 + ino.blocks < 2 ^ 32)
    (h : loadBlockMap ino img blockSize = .ok bm) :
    bm.length = ino.blocks := by
  by_cases h0 : ino.blocks = 0
  · simp only [loadBlockMap, if_pos h0] at h
    cases h
    simp [h0]
  · by_cases hmark : ino.directBlocks.getD 1 0 = 0xffffffff
    · simp only [loadBlockMap, if_neg h0, if_pos hmark] at h
      cases h
      have := hnoov hmark
      simp only [List.length_range']
      rw [Nat.mod_eq_of_lt this]
      omega
    · by_cases h12 : ino.blocks ≤ 12
      · simp only [loadBlockMap, if_neg h0, if_neg hmark, if_pos h12] at h
        cases h
        simp only [List.length_take]
        omega
      · cases hr : readExactAt img (ino.indirectBlocks.getD 0 0 * blockSize)
            blockSize with
        | none =>
          simp only [loadBlockMap, if_neg h0, if_neg hmark, if_neg h12,
            hr] at h
          exact Except.noConfusion h
        | some block0 =>
          simp only [loadBlockMap, if_neg h0, if_neg hmark, if_neg h12,
            hr] at h
          by_cases hneed : ino.blocks - ino.directBlocks.length ≤
              (readIndirectEntries ino.signed block0).length
          · rw [if_pos hneed] at h
            cases h
            simp only [List.length_append, List.length_take]
            omega
          · rw [if_neg hneed] at h
            cases hr2 : readExactAt img
                (ino.indirectBlocks.getD 1 0 * blockSize) blockSize with
            | none =>
              simp only [hr2] at h
              exact Except.noConfusion h
            | some block0b =>
              simp only [hr2] at h
              refine loadIndirect2_length ?_ h
              simp only [List.length_append]
              omega

theorem mapM_except_ok {α β : Type} (f : α → Except String β) :
    ∀ (l : List α) (out : List β), l.mapM f = .ok out →
      out.length = l.length ∧
      ∀ i a, l.get? i = some a → ∃ b, out.get? i = some b ∧ f a = .ok b := by
  intro l
  induction l with
  | nil =>
    intro out h
    simp only [List.mapM_nil, pure] at h
    cases h
    exact ⟨rfl, fun i a ha => by cases ha⟩
  | cons a rest ih =>
    intro out h
    rw [List.mapM_cons] at h
    cases hf : f a with
    | error e =>
      rw [hf] at h
      simp [Bind.bind, Except.bind] at h
    | ok b =>
      rw [hf] at h
      cases hm : rest.mapM f with
      | error e =>
        rw [hm] at h
        simp [Bind.bind, Except.bind] at h
      | ok bs =>
        rw [hm] at h
        simp only [Bind.bind, Except.bind, pure, Except.pure,
          Except.ok.injEq] at h
        subst h
        obtain ⟨hlen, hget⟩ := ih bs hm
        refine ⟨by simp [hlen], ?_⟩
        intro i x hx
        cases i with
        | zero =>
          cases hx
          exact ⟨b, rfl, hf⟩
        | succ j =>
          simp only [List.get?_cons_succ] at hx ⊢
          exact hget j x hx

/-- C7 (amended): on every successfully opened PFS there is one block map
per inode and, barring the u32 overflow of the contiguous branch, each
inode's block map has exactly `block_count` entries.  The relation between
`block_count * block_size` and `size` claimed by the specification is not
validated anywhere, and fails on the counterexample image. -/
theorem c7_block_map_length (data : List Byte) (pfs : Pfs)
    (hopen : openSliceUnencrypted data = .ok pfs) :
    pfs.blockMaps.length = pfs.inodes.length ∧
    ∀ i ino bm, pfs.inodes.get? i = some ino →
      pfs.blockMaps.get? i = some bm →
      (ino.directBlocks.getD 1 0 = 0xffffffff →
        ino.directBlocks.getD 0 0 + ino.blocks < 2 ^ 32) →
      bm.length = ino.blocks := by
  cases hh : headerFromBytes data with
  | error e =>
    simp only [openSliceUnencrypted, hh] at hopen
    exact Except.noConfusion hopen
  | ok header =>
    simp only [openSliceUnencrypted, hh, openInner] at hopen
    split_ifs at hopen with hbs
    cases hri : readInodes (fun p => data[p]?) (modeIsSigned header.mode)
        header.blockSize header.inodeCount header.inodeBlockCount 0 [] with
    | error e =>
      simp only [hri] at hopen
      exact Except.noConfusion hopen
    | ok inodes =>
      simp only [hri] at hopen
      split_ifs at hopen with hsr
      cases hpm : precomputeBlockMaps inodes (fun p => data[p]?)
          header.blockSize with
      | error e =>
        simp only [hpm] at hopen
        exact Except.noConfusion hopen
      | ok maps =>
        simp only [hpm] at hopen
        cases hopen
        have hd12 : ∀ ino ∈ inodes, ino.directBlocks.length = 12 :=
          readInodes_direct_length hri (by intro ino h; cases h)
        unfold precomputeBlockMaps at hpm
        obtain ⟨hlen, hget⟩ := mapM_except_ok _ inodes maps hpm
        refine ⟨hlen, ?_⟩
        intro i ino bm hino hbm hnoov
        obtain ⟨bm2, hbm2, hload⟩ := hget i ino hino
        rw [hbm] at hbm2
        cases hbm2
        exact loadBlockMap_length
          (hd12 ino (List.get?_mem hino)) hnoov hload

theorem c7_block_map_length_witness : ([] : List Nat).length = 0 :=
  (c7_block_map_length c7Image c7Pfs rfl).2 0
    { index := 0
      mode := 0
      flags := 0
      size := 1
      sizeCompressed := 0
      blocks := 0
      directBlocks := List.replicate 12 0
      indirectBlocks := List.replicate 5 0
      signed := false } [] rfl rfl (by decide)

/-- C7 counterexample: `c7Image` opens successfully, its only inode has
`size = 1 > 0` but `block_count = 0`, so the block map is empty and
`block_map.len() * block_size = 0 < size`: the claimed coverage invariant
does not hold on successfully opened filesystems. -/
theorem c7_block_map_length_counterexample :
    openSliceUnencrypted c7Image = .ok c7Pfs ∧
    (∃ ino, c7Pfs.inodes.get? 0 = some ino ∧ 0 < ino.size ∧
      ∃ bm, c7Pfs.blockMaps.get? 0 = some bm ∧
        bm.length * c7Pfs.blockSize < ino.size) :=
  ⟨rfl,
    ⟨{ index := 0
       mode := 0
       flags := 0
       size := 1
       sizeCompressed := 0
       blocks := 0
       directBlocks := List.replicate 12 0
       indirectBlocks := List.replicate 5 0
       signed := false }, rfl, by decide, [], rfl, by decide⟩⟩

end Orbis

namespace Orbis

/-- C10 (amended): for every inode with `block_count = 1`,
`contiguous_blocks` returns `Some((direct[0], 1))` whether or not the
`0xFFFFFFFF` marker is present; and `File::as_slice` of an uncompressed,
nonempty such file over the backing slice of an opened unencrypted PFS
yields the byte range at `direct[0] * block_size` **provided that range
lies inside the backing slice** — otherwise `slice.get(..)` yields `None`
(see the counterexample). -/
theorem c10_single_block_as_slice (backing : List Byte) (pfs : Pfs)
    (idx : Nat) (ino : Inode)
    (_hopen : openSliceUnencrypted backing = .ok pfs)
    (hino : pfs.inodes.get? idx = some ino)
    (hblocks : ino.blocks = 1)
    (hunc : inodeIsCompressed ino.flags = false)
    (hpos : 0 < ino.size)
    (hbound : ino.directBlocks.getD 0 0 * pfs.blockSize + ino.size ≤
      backing.length) :
    (∀ ino2 : Inode, ino2.blocks = 1 →
      contiguousBlocks ino2 = some (ino2.directBlocks.getD 0 0, 1)) ∧
    fileAsSlice backing pfs idx =
      some (bytesAt backing (ino.directBlocks.getD 0 0 * pfs.blockSize)
        ino.size) := by
  have hcontig : ∀ ino2 : Inode, ino2.blocks = 1 →
      contiguousBlocks ino2 = some (ino2.directBlocks.getD 0 0, 1) := by
    intro ino2 h1
    unfold contiguousBlocks
    rw [if_neg (by omega)]
    by_cases hm : ino2.directBlocks.getD 1 0 = 0xffffffff
    · rw [if_pos hm, h1]
    · rw [if_neg hm, if_pos h1]
  refine ⟨hcontig, ?_⟩
  have hcb := hcontig ino hblocks
  simp only [fileAsSlice, hino, hunc, Bool.false_eq_true, if_false]
  rw [if_neg (show ¬ ino.size = 0 by omega)]
  simp only [hcb]
  rw [if_pos hbound]

theorem c10_single_block_as_slice_witness :
    fileAsSlice c10GoodImage c10GoodPfs 0 =
      some (bytesAt c10GoodImage 256 10) :=
  (c10_single_block_as_slice c10GoodImage c10GoodPfs 0
    { index := 0
      mode := 0
      flags := 0
      size := 10
      sizeCompressed := 0
      blocks := 1
      directBlocks := 1 :: List.replicate 11 0
      indirectBlocks := List.replicate 5 0
      signed := false }
    (by rfl) rfl (by decide) (by decide) (by decide) (by decide)).2

/-- C10 counterexample: `c10Image` opens successfully; its only inode is
uncompressed with `block_count = 1` and `size = 1000`, yet `as_slice`
returns `None` because the contiguous range `[0, 1000)` overruns the
896-byte backing slice — not the claimed borrow of the file bytes. -/
theorem c10_single_block_as_slice_counterexample :
    openSliceUnencrypted c10Image = .ok c10Pfs ∧
    (∃ ino, c10Pfs.inodes.get? 0 = some ino ∧ ino.blocks = 1 ∧
      inodeIsCompressed ino.flags = false ∧ 0 < ino.size) ∧
    fileAsSlice c10Image c10Pfs 0 = none :=
  ⟨rfl,
    ⟨{ index := 0
       mode := 0
       flags := 0
       size := 1000
       sizeCompressed := 0
       blocks := 1
       directBlocks := List.replicate 12 0
       indirectBlocks := List.replicate 5 0
       signed := false }, rfl, rfl, by decide, by decide⟩, rfl⟩

/-- C8 (amended): `EncryptedSlice::read_at` fails with an
`XTS block #k out of bounds` error whenever the read starts in bounds with
a nonempty buffer but the 0x1000-byte sector holding the read position is
not wholly contained in the backing slice — in particular for every
partial tail sector, where the specification instead claims a short read
of the remaining bytes.  Reads starting at or past the end, or with an
empty buffer, return `Ok(0)`. -/
theorem c8_enc_partial_sector (data : List Byte)
    (decrypt : Nat → List Byte → List Byte) (encryptedStart : Nat)
    (offset bufLen : Nat)
    (hoff : offset < data.length) (hbuf : 0 < bufLen)
    (htail : data.length < (offset / xtsBlockSize) * xtsBlockSize +
      xtsBlockSize) :
    encReadAt data decrypt encryptedStart offset bufLen =
      .error ("XTS block #" ++ toString (offset / xtsBlockSize) ++
        " out of bounds") ∧
    (∀ off2 len2 : Nat, len2 = 0 ∨ data.length ≤ off2 →
      encReadAt data decrypt encryptedStart off2 len2 = .ok []) := by
  constructor
  · unfold encReadAt
    rw [if_neg (by omega)]
    obtain ⟨m, rfl⟩ : ∃ m, bufLen = m + 1 := ⟨bufLen - 1, by omega⟩
    simp only [encReadLoop]
    rw [if_neg (by omega), if_pos htail]
  · intro off2 len2 h2
    unfold encReadAt
    rw [if_pos (by omega)]

theorem c8_enc_partial_sector_witness :
    encReadAt (List.replicate 100 3) (fun _ b => b) 0 64 5 =
      .error ("XTS block #" ++ toString (64 / xtsBlockSize) ++
        " out of bounds") :=
  (c8_enc_partial_sector (List.replicate 100 3) (fun _ b => b) 0 64 5
    (by simp) (by decide) (by simp [xtsBlockSize])).1

/-- C8 counterexample: a 10-byte backing slice read at offset 0 (strictly
in bounds, 5-byte buffer).  The specification claims the bytes up to the
end of the slice are returned; the code demands the whole first 0x1000
sector and errors. -/
theorem c8_enc_partial_sector_counterexample :
    0 < (List.replicate 10 7 : List Byte).length ∧
    encReadAt (List.replicate 10 7) (fun _ b => b) 0 0 5 =
      .error "XTS block #0 out of bounds" :=
  ⟨by decide, rfl⟩

end Orbis

namespace Orbis

theorem leValue_lt (l : List Byte) : leValue l < 256 ^ l.length := by
  induction l with
  | nil => simp [leValue]
  | cons b xs ih =>
    simp only [leValue, List.foldr_cons, List.length_cons] at ih ⊢
    have hb : b.toNat < 256 := b.val.isLt
    have h2 : 256 * (List.foldr (fun b acc => b.toNat + 256 * acc) 0 xs + 1) ≤
        256 * 256 ^ xs.length := Nat.mul_le_mul_left _ ih
    have h3 : (256 : Nat) ^ (xs.length + 1) = 256 * 256 ^ xs.length := by
      ring
    omega

theorem leU32_lt (l : List Byte) (off : Nat) : leU32 l off < 2 ^ 32 := by
  have h := leValue_lt (bytesAt l off 4)
  have hlen : (bytesAt l off 4).length ≤ 4 := by
    simp [bytesAt]
  have h2 : (256 : Nat) ^ (bytesAt l off 4).length ≤ 256 ^ 4 :=
    Nat.pow_le_pow_right (by omega) hlen
  have h3 : (256 : Nat) ^ 4 = 2 ^ 32 := by norm_num
  unfold leU32
  omega

/-- C9 (amended): inside a directory block, a dirent record whose 16-byte
header and name both lie within the block but whose `record_size` is
nonzero and smaller than `16 + name_length` makes `Directory::open` fail
with the `DirentInvalidSize` error (via the wrapped `padding_size`
exceeding the remaining bytes).  However — correcting the specification's
unconditional claim — a corrupt record whose *name runs past the end of
the block* (or whose `record_size` is 0) does not produce any error: the
parse loop treats it as the end of the block and returns the entries
collected so far. -/
theorem c9_dirent_invalid_size (inodeCount b : Nat) (data : List Byte)
    (hlen16 : ¬ data.length < 16)
    (hlen32 : data.length < 2 ^ 32)
    (hnz : ¬ leU32 data 12 = 0)
    (hname : ¬ (data.drop 16).length < leU32 data 8)
    (hbad : leU32 data 12 < 16 + leU32 data 8) :
    (∀ num fuel items,
      parseDirentsLoop inodeCount b (fuel + 1) data num items =
        .error ("dirent #" ++ toString num ++ " in block #" ++
          toString b ++ " has invalid size")) ∧
    (∀ fuel num items (src : List Byte), ¬ src.length < 16 →
      ¬ leU32 src 12 = 0 → (src.drop 16).length < leU32 src 8 →
      parseDirentsLoop inodeCount b (fuel + 1) src num items = .ok items) := by
  constructor
  · intro num fuel items
    have hdr : direntRead data = .ok (leU32 data 0, leU32 data 4,
        bytesAt (data.drop 16) 0 (leU32 data 8), leU32 data 12,
        (data.drop 16).drop (leU32 data 8)) := by
      simp only [direntRead]
      rw [if_neg hlen16, if_neg hnz, if_neg hname]
    have hn' : ¬ data.length - 16 < leU32 data 8 := by
      rw [← List.length_drop]
      exact hname
    have hnl : (bytesAt (data.drop 16) 0 (leU32 data 8)).length =
        leU32 data 8 := by
      simp only [bytesAt, List.drop_zero, List.length_take,
        List.length_drop]
      omega
    have hguard : ((data.drop 16).drop (leU32 data 8)).length <
        direntPaddingSize (leU32 data 12)
          (bytesAt (data.drop 16) 0 (leU32 data 8)).length := by
      rw [hnl]
      unfold direntPaddingSize
      have h1 : leU32 data 8 < 2 ^ 32 := leU32_lt data 8
      have h2 : leU32 data 12 < 2 ^ 32 := leU32_lt data 12
      have h3 : ((data.drop 16).drop (leU32 data 8)).length ≤
          data.length := by
        simp only [List.length_drop]
        omega
      rw [Nat.mod_eq_of_lt (by omega)]
      omega
    simp only [parseDirentsLoop, hdr]
    rw [if_pos hguard]
  · intro fuel num items src h16 hz hn
    have hdr : direntRead src = .error .tooSmall := by
      simp only [direntRead]
      rw [if_neg h16, if_neg hz, if_pos hn]
    simp only [parseDirentsLoop, hdr]

theorem c9_dirent_invalid_size_witness :
    parseDirentsLoop 1 3 32 (mkImage 32 [(4, [2]), (8, [4]), (12, [16])])
        0 [] =
      .error ("dirent #" ++ toString 0 ++ " in block #" ++ toString 3 ++
        " has invalid size") :=
  (c9_dirent_invalid_size 1 3 (mkImage 32 [(4, [2]), (8, [4]), (12, [16])])
    (by decide) (by decide) (by decide) (by decide) (by decide)).1 0 31 []

/-- C9 counterexample: `c9Image` opens successfully and its root
directory block holds a record with `record_size = 20`,
`name_length = 300` — nonzero and invalid (`20 < 16 + 300`) — yet
`Directory::open` returns `Ok` with no entries, because the name runs past
the block end and the parse loop silently stops instead of reporting
`DirentInvalidSize`. -/
theorem c9_dirent_invalid_size_counterexample :
    openSliceUnencrypted c9Image = .ok c9Pfs ∧
    leU32 (bytesAt c9Image 768 256) 12 = 20 ∧
    leU32 (bytesAt c9Image 768 256) 8 = 300 ∧
    (20 : Nat) < 16 + 300 ∧
    dirOpen c9Pfs (fun p => c9Image[p]?) 0 = .ok [] :=
  ⟨rfl, by decide, by decide, by decide, rfl⟩

end Orbis
